import Mathlib

set_option maxRecDepth 10000
set_option linter.unusedVariables false

/-
Verification development for the phuffman canonical Huffman code table
builder (src/src/CodeTableAdapter.cpp) and its block decoder contract
(src/test/cpu_decode.hpp).

Machine integers of the source are modelled as Nat.  The width of the
bit-pattern field of a Code is fixed only by the absent header
CodesTable.h; the spec bounds every codelength by the storage width of
the pattern (MAX_CODELENGTH), so within the contract no arithmetic of
the source overflows and plain Nat is a faithful model.
-/

/-- Alphabet size, fixed at 256 byte values (constants.h is absent from
src/; the spec fixes the alphabet at 256). -/
def ALPHABET_SIZE : Nat := 256

/-- A (bit-pattern, codelength) pair, as in the absent CodesTable.h.
codelength 0 means the symbol is unused. -/
structure Code where
  code : Nat
  codelength : Nat
deriving DecidableEq, Repr

/-- Constructor mirroring the CodeMake(codelength, code) call sites. -/
def CodeMake (codelength code : Nat) : Code := ⟨code, codelength⟩

/-- The all-zero entry produced by the memset in both constructors. -/
def zeroCode : Code := ⟨0, 0⟩

/-- Table-wide metadata. -/
structure CodeTableInfo where
  max_codelength : Nat
deriving DecidableEq, Repr

/-- The code table: metadata plus one Code per symbol. -/
structure CodeTable where
  info : CodeTableInfo
  codes : Nat → Code

/-- CodeTableAdapter.cpp lines 10-14: order leaves first by depth
(descending) then by symbol value (ascending).  A leaf is modelled as a
(symbol, depth) pair. -/
def _LeafComparator (left right : Nat × Nat) : Bool :=
  decide (right.2 < left.2 ∨ (left.2 = right.2 ∧ left.1 < right.1))

/-- The non-strict order induced by _LeafComparator; std::sort with a
strict weak order produces exactly a list sorted by this relation. -/
def leafLe (a b : Nat × Nat) : Prop := _LeafComparator b a = false

instance : DecidableRel leafLe := fun _ _ => by unfold leafLe; infer_instance

instance : IsTotal (Nat × Nat) leafLe :=
  ⟨fun a b => by
    simp only [leafLe, _LeafComparator, decide_eq_false_iff_not]
    omega⟩

instance : IsTrans (Nat × Nat) leafLe :=
  ⟨fun a b c hab hbc => by
    simp only [leafLe, _LeafComparator, decide_eq_false_iff_not] at *
    omega⟩

instance : IsAntisymm (Nat × Nat) leafLe :=
  ⟨fun a b hab hba => by
    simp only [leafLe, _LeafComparator, decide_eq_false_iff_not] at *
    have h1 : a.1 = b.1 := by omega
    have h2 : a.2 = b.2 := by omega
    exact Prod.ext h1 h2⟩

instance : IsRefl (Nat × Nat) leafLe :=
  ⟨fun a => by
    simp only [leafLe, _LeafComparator, decide_eq_false_iff_not]
    omega⟩

/-- The std::sort(leaves) call of both constructors: since
_LeafComparator is a strict total order on (symbol, depth) pairs, the
result is the unique list sorted by leafLe. -/
def sortLeaves (leaves : List (Nat × Nat)) : List (Nat × Nat) :=
  List.insertionSort leafLe leaves

/-- CodeTableAdapter.cpp lines 151-164: derive the next code from the
previous one and the next depth.  Equal depth increments the pattern;
a shorter depth increments and then right-shifts by the difference. -/
def nextCode (last : Code) (depth : Nat) : Code :=
  if depth = last.codelength then CodeMake depth (last.code + 1)
  else CodeMake depth ((last.code + 1) >>> (last.codelength - depth))

/-- The (symbol, code) assignments made by the while loop of
_buildTable, given the code of the first leaf. -/
def assignAll : Code → List (Nat × Nat) → List (Nat × Code)
  | _, [] => []
  | last, p :: ps => (p.1, nextCode last p.2) :: assignAll (nextCode last p.2) ps

/-- All (symbol, code) assignments of _buildTable: the first (longest)
leaf gets pattern 0 at its own depth, the rest follow nextCode. -/
def tableAssignments : List (Nat × Nat) → List (Nat × Code)
  | [] => []
  | p :: ps => (p.1, CodeMake p.2 0) :: assignAll (CodeMake p.2 0) ps

/-- Point update of the codes array. -/
def updf (f : Nat → Code) (k : Nat) (v : Code) : Nat → Code :=
  fun i => if i = k then v else f i

/-- Writing a list of assignments into the codes array in order. -/
def applyAssignments (ps : List (Nat × Code)) (f : Nat → Code) : Nat → Code :=
  ps.foldl (fun g q => updf g q.1 q.2) f

/-- CodeTableAdapter::_buildTable (lines 143-169) over the
already-sorted leaves.  The C++ code dereferences leaves.begin()
unconditionally, so an empty leaf list is a failure (modelled none).
max_codelength is set from the first leaf only.  The codes array was
zeroed by memset in both callers. -/
def _buildTable : List (Nat × Nat) → Option CodeTable
  | [] => none
  | p :: ps =>
    some { info := { max_codelength := p.2 },
           codes := applyAssignments (tableAssignments (p :: ps)) (fun _ => zeroCode) }

/-- The leaves built from a 256-entry length descriptor
(CodeTableAdapter.cpp lines 25-38): one leaf per symbol with a nonzero
length, depth = that length. -/
def lengthsLeaves (file_data : List Nat) : List (Nat × Nat) :=
  (List.range ALPHABET_SIZE).filterMap
    (fun i => if 0 < file_data.getD i 0 then some (i, file_data.getD i 0) else none)

/-- CodeTableAdapter::CodeTableAdapter(const char*, size_t)
(lines 20-50): build a table from a length descriptor of exactly
ALPHABET_SIZE entries (the size is checked by assert).  The assert
lengths[i] < MAXIMUM_CODELENGTH is a caller contract whose constant
lives in the absent constants.h; per spec section 6 the caller
validates lengths, so it is not modelled as a failure here. -/
def buildFromLengths (file_data : List Nat) : Option CodeTable :=
  if file_data.length = ALPHABET_SIZE then
    _buildTable (sortLeaves (lengthsLeaves file_data))
  else none

/-- CodeTableAdapter.cpp lines 16-18: order frequencies ascending. -/
def _FrequencyComparator (left right : Nat × Nat) : Bool := decide (left.2 < right.2)

/-- Non-strict order induced by _FrequencyComparator. -/
def freqLe (a b : Nat × Nat) : Prop := _FrequencyComparator b a = false

instance : DecidableRel freqLe := fun _ _ => by unfold freqLe; infer_instance

instance : IsTotal (Nat × Nat) freqLe :=
  ⟨fun a b => by
    simp only [freqLe, _FrequencyComparator, decide_eq_false_iff_not]
    omega⟩

instance : IsTrans (Nat × Nat) freqLe :=
  ⟨fun a b c hab hbc => by
    simp only [freqLe, _FrequencyComparator, decide_eq_false_iff_not] at *
    omega⟩

/-- CodeTableAdapter::_countFrequencies (lines 108-124): count each of
the 256 byte values, keep the (symbol, count) pairs with positive
count, sort ascending by count.  std::sort leaves the order of
equal-count pairs unspecified; modelled as the stable order (ties keep
their ascending-symbol order), one deterministic choice of it. -/
def _countFrequencies (data : List Nat) : List (Nat × Nat) :=
  List.insertionSort freqLe
    ((List.range ALPHABET_SIZE).filterMap
      (fun i => if 0 < data.count i then some (i, data.count i) else none))

/-- Modelled from the spec: DepthCounterNode.hpp is absent from src/.
Per spec section 3, a node is either a leaf owning a symbol or an
internal node owning exactly two children. -/
inductive DepthCounterNode where
  | leaf : Nat → DepthCounterNode
  | node : DepthCounterNode → DepthCounterNode → DepthCounterNode
deriving Repr

/-- std::multimap insertion: the new entry goes before the first
strictly greater key, after all entries with an equal key. -/
def insertUB (key : Nat) (t : DepthCounterNode) :
    List (Nat × DepthCounterNode) → List (Nat × DepthCounterNode)
  | [] => [(key, t)]
  | q :: qs => if key < q.1 then (key, t) :: q :: qs else q :: insertUB key t qs

/-- One iteration of the loop of _buildTree (lines 130-138): remove the
two entries with smallest frequency and reinsert their merged node with
the summed frequency. -/
def mergeStep : List (Nat × DepthCounterNode) → List (Nat × DepthCounterNode)
  | p :: q :: rest => insertUB (p.1 + q.1) (DepthCounterNode.node p.2 q.2) rest
  | l => l

/-- The loop of _buildTree runs size - 1 merge iterations. -/
def iterateMerge : Nat → List (Nat × DepthCounterNode) → List (Nat × DepthCounterNode)
  | 0, l => l
  | n + 1, l => iterateMerge n (mergeStep l)

/-- CodeTableAdapter::_buildTree (lines 126-141). -/
def _buildTree (l : List (Nat × DepthCounterNode)) : List (Nat × DepthCounterNode) :=
  iterateMerge (l.length - 1) l

/-- Modelled from the spec: DepthCounterNode.hpp is absent from src/.
Per spec section 4.1 step 5, the depth of each leaf is its distance
from the root; this extracts the (symbol, depth) pairs of all leaves. -/
def leafDepths : DepthCounterNode → Nat → List (Nat × Nat)
  | .leaf s, d => [(s, d)]
  | .node a b, d => leafDepths a (d + 1) ++ leafDepths b (d + 1)

/-- The initial multimap of lines 62-68: one leaf per distinct symbol,
keyed by its frequency, inserted in ascending-frequency order. -/
def initialTree (freqs : List (Nat × Nat)) : List (Nat × DepthCounterNode) :=
  freqs.foldl (fun m p => insertUB p.2 (DepthCounterNode.leaf p.1) m) []

/-- CodeTableAdapter::CodeTableAdapter(const unsigned char*, size_t)
(lines 52-87).  Empty data leaves the frequency multimap empty and the
constructor dereferences tree.begin() of an empty multimap (line 75),
a failure, modelled none.  A single distinct symbol is assigned depth 1
directly (lines 74-78).  Otherwise the Huffman tree is merged and the
sorted leaf depths drive _buildTable. -/
def buildFromData (data : List Nat) : Option CodeTable :=
  match _countFrequencies data with
  | [] => none
  | [f] => _buildTable (sortLeaves [(f.1, 1)])
  | f :: g :: rest =>
    match _buildTree (initialTree (f :: g :: rest)) with
    | [r] => _buildTable (sortLeaves (leafDepths r.2 0))
    | _ => none

/-- operator<< (lines 171-176): serialize the table as its 256
per-symbol codelengths. -/
def lengthsOf (t : CodeTable) : List Nat :=
  (List.range ALPHABET_SIZE).map (fun i => (t.codes i).codelength)

/-- Kraft sum of a list of (symbol, length) leaves: sum of 2 ^ -length
over the leaves. -/
def kraftQ (leaves : List (Nat × Nat)) : ℚ :=
  (leaves.map (fun p => ((1 : ℚ) / 2) ^ p.2)).sum

/-- Kraft sum of the used symbols of a 256-entry length descriptor. -/
def kraftOfLengths (file_data : List Nat) : ℚ := kraftQ (lengthsLeaves file_data)

/-- One code is a bit-prefix of another: it is no longer, and dropping
the trailing bits of the longer pattern yields the shorter pattern. -/
def isPrefixCode (c d : Code) : Prop :=
  c.codelength ≤ d.codelength ∧ d.code >>> (d.codelength - c.codelength) = c.code

instance (c d : Code) : Decidable (isPrefixCode c d) := by
  unfold isPrefixCode; infer_instance

/-- No assigned code of the table is a bit-prefix of another assigned
code. -/
def tablePrefixFree (t : CodeTable) : Prop :=
  ∀ s, s < ALPHABET_SIZE → ∀ u, u < ALPHABET_SIZE → s ≠ u →
    0 < (t.codes s).codelength → 0 < (t.codes u).codelength →
    ¬ isPrefixCode (t.codes s) (t.codes u)

/-- Modelled from the spec: the CPU::Decode implementation is absent
from src/ (src/test/cpu_decode.hpp only declares it).  Per spec section
4.3 codewords are laid into the stream MSB-first; these are the
codelength bits of the pattern, most significant first. -/
def bitsMSB : Nat → Nat → List Bool
  | 0, _ => []
  | w + 1, n => n.testBit w :: bitsMSB w n

/-- The bits emitted for one symbol by the (external) encoder. -/
def encodeSymbol (t : CodeTable) (s : Nat) : List Bool :=
  bitsMSB (t.codes s).codelength (t.codes s).code

/-- Codewords packed back-to-back, per spec section 4.3. -/
def encodeData (t : CodeTable) (data : List Nat) : List Bool :=
  data.foldr (fun s acc => encodeSymbol t s ++ acc) []

/-- Modelled from the spec: the symbol, if any, whose assigned code has
exactly the given pattern and length. -/
def matchSymbol (t : CodeTable) (pat len : Nat) : Option Nat :=
  (List.range ALPHABET_SIZE).find?
    (fun s => (t.codes s).codelength == len && (t.codes s).code == pat)

/-- Modelled from the spec: the CPU::Decode implementation is absent
from src/.  Per spec section 4.3 the decoder reads bits one at a time
MSB-first, testing against assigned codes, up to max_codelength bits
(the fuel); failure to match within max_codelength bits is a
corrupt-stream error (none). -/
def decodeOne (t : CodeTable) : Nat → Nat → Nat → List Bool → Option (Nat × List Bool)
  | 0, _, _, _ => none
  | _ + 1, _, _, [] => none
  | fuel + 1, acc, len, b :: bs =>
    match matchSymbol t (2 * acc + (if b then 1 else 0)) (len + 1) with
    | some s => some (s, bs)
    | none => decodeOne t fuel (2 * acc + (if b then 1 else 0)) (len + 1) bs

/-- Modelled from the spec: decode exactly the declared number of
symbols of a block, consuming the stream codeword by codeword. -/
def decodeAll (t : CodeTable) : Nat → List Bool → Option (List Nat)
  | 0, _ => some []
  | k + 1, bits =>
    match decodeOne t t.info.max_codelength 0 0 bits with
    | none => none
    | some (s, rest) => (decodeAll t k rest).map (fun ds => s :: ds)

/-- Scaled weight sum of a leaf list at common width L: each leaf of
depth d contributes 2 ^ (L - d). -/
def sumW (L : Nat) (ls : List (Nat × Nat)) : Nat :=
  (ls.map (fun p => 2 ^ (L - p.2))).sum

/-- Scaled lower end of the interval covered by a code. -/
def startOf (L : Nat) (c : Code) : Nat := c.code * 2 ^ (L - c.codelength)

/-- Scaled upper end of the interval covered by a code. -/
def endOf (L : Nat) (c : Code) : Nat := (c.code + 1) * 2 ^ (L - c.codelength)

/-- The symbols at the leaves of a tree. -/
def treeSyms : DepthCounterNode → List Nat
  | .leaf s => [s]
  | .node a b => treeSyms a ++ treeSyms b

/-- The symbols at the leaves of every tree of a work list. -/
def listSyms (l : List (Nat × DepthCounterNode)) : List Nat :=
  (l.map (fun p => treeSyms p.2)).flatten

/-- The (symbol, codelength) pairs the Resolver hands to the Builder:
one pair of depth 1 when a single symbol occurs, otherwise the leaf
depths of the merged Huffman tree. -/
def resolverLeaves (data : List Nat) : List (Nat × Nat) :=
  match _countFrequencies data with
  | [] => []
  | [f] => [(f.1, 1)]
  | f :: g :: rest =>
    match _buildTree (initialTree (f :: g :: rest)) with
    | [r] => leafDepths r.2 0
    | _ => []

/-- Length descriptor assigning length 2 to symbol 0 and length 1 to
symbol 1: its Kraft sum is 3/4 and the built table is not prefix-free. -/
def exL : List Nat := 2 :: 1 :: List.replicate 254 0

/-- Length descriptor assigning length 1 to symbols 0 and 1: a complete
code, Kraft sum exactly 1. -/
def exL2 : List Nat := 1 :: 1 :: List.replicate 254 0

/-- Fallback table used only to extract built tables from Option. -/
def defaultTable : CodeTable := { info := ⟨0⟩, codes := fun _ => zeroCode }

/-- The table built from exL. -/
def exT : CodeTable := (buildFromLengths exL).getD defaultTable

/-- The table built from exL2. -/
def exT2 : CodeTable := (buildFromLengths exL2).getD defaultTable

/-- The concrete data buffer used by several witnesses. -/
def exD : List Nat := [0, 0, 1]

/-- The table built from exD. -/
def exTD : CodeTable := (buildFromData exD).getD defaultTable

/-- The comparator order spelled out: descending depth, ties broken by
ascending symbol. -/
theorem leafLe_iff (a b : Nat × Nat) :
    leafLe a b ↔ b.2 < a.2 ∨ (b.2 = a.2 ∧ a.1 ≤ b.1) := by
  simp only [leafLe, _LeafComparator, decide_eq_false_iff_not]
  omega

/- ### Table lookup lemmas -/

theorem applyAssignments_notMem (ps : List (Nat × Code)) (f : Nat → Code) (k : Nat)
    (h : k ∉ ps.map (fun q => q.1)) : applyAssignments ps f k = f k := by
  induction ps generalizing f with
  | nil => rfl
  | cons q qs ih =>
    simp only [List.map_cons, List.mem_cons] at h
    push_neg at h
    simp only [applyAssignments, List.foldl_cons] at *
    rw [ih (updf f q.1 q.2) h.2]
    simp [updf, h.1]

theorem applyAssignments_mem (ps : List (Nat × Code)) (f : Nat → Code) (k : Nat) (v : Code)
    (hnd : (ps.map (fun q => q.1)).Nodup) (hmem : (k, v) ∈ ps) :
    applyAssignments ps f k = v := by
  induction ps generalizing f with
  | nil => simp at hmem
  | cons q qs ih =>
    simp only [List.map_cons, List.nodup_cons] at hnd
    rcases List.mem_cons.mp hmem with h | h
    · subst h
      have : applyAssignments qs (updf f k v) k = updf f k v k :=
        applyAssignments_notMem qs (updf f k v) k hnd.1
      simpa [applyAssignments, updf] using this
    · exact ih (updf f q.1 q.2) hnd.2 h

theorem assignAll_keys (last : Code) (ls : List (Nat × Nat)) :
    (assignAll last ls).map (fun q => q.1) = ls.map (fun p => p.1) := by
  induction ls generalizing last with
  | nil => rfl
  | cons p ps ih => simp [assignAll, ih]

theorem tableAssignments_keys (ls : List (Nat × Nat)) :
    (tableAssignments ls).map (fun q => q.1) = ls.map (fun p => p.1) := by
  cases ls with
  | nil => rfl
  | cons p ps => simp [tableAssignments, assignAll_keys]

theorem assignAll_lengths (last : Code) (ls : List (Nat × Nat)) :
    (assignAll last ls).map (fun q => (q.1, q.2.codelength)) = ls := by
  induction ls generalizing last with
  | nil => rfl
  | cons p ps ih =>
    simp only [assignAll, List.map_cons, ih]
    congr 1
    unfold nextCode
    split <;> simp [CodeMake]

theorem tableAssignments_lengths (ls : List (Nat × Nat)) :
    (tableAssignments ls).map (fun q => (q.1, q.2.codelength)) = ls := by
  cases ls with
  | nil => rfl
  | cons p ps => simp [tableAssignments, assignAll_lengths, CodeMake]

/-- For a leaf (k, d) of a nodup-key leaf list, some assignment pairs k
with a code of codelength d. -/
theorem tableAssignments_mem_of_leaf (ls : List (Nat × Nat)) (k d : Nat)
    (hmem : (k, d) ∈ ls) :
    ∃ c : Code, (k, c) ∈ tableAssignments ls ∧ c.codelength = d := by
  have h := tableAssignments_lengths ls
  rw [← h] at hmem
  rcases List.mem_map.mp hmem with ⟨q, hq, hq2⟩
  have h1 : q.1 = k := congrArg Prod.fst hq2
  have h2 : q.2.codelength = d := congrArg Prod.snd hq2
  exact ⟨q.2, by rw [← h1]; exact hq, h2⟩

/- ### _buildTable lookup facts -/

/-- Looking up a symbol that is not a leaf yields the zero code. -/
theorem buildTable_lookup_notMem (ls : List (Nat × Nat)) (t : CodeTable)
    (ht : _buildTable ls = some t) (k : Nat) (hk : k ∉ ls.map (fun p => p.1)) :
    t.codes k = zeroCode := by
  cases ls with
  | nil => simp [_buildTable] at ht
  | cons p ps =>
    simp only [_buildTable, Option.some_inj] at ht
    subst ht
    have : k ∉ (tableAssignments (p :: ps)).map (fun q => q.1) := by
      rw [tableAssignments_keys]; exact hk
    exact applyAssignments_notMem _ _ k this

/-- Looking up a leaf symbol yields the code assigned to it. -/
theorem buildTable_lookup_mem (ls : List (Nat × Nat)) (t : CodeTable)
    (ht : _buildTable ls = some t) (k : Nat) (c : Code)
    (hnd : (ls.map (fun p => p.1)).Nodup) (hmem : (k, c) ∈ tableAssignments ls) :
    t.codes k = c := by
  cases ls with
  | nil => simp [_buildTable] at ht
  | cons p ps =>
    simp only [_buildTable, Option.some_inj] at ht
    subst ht
    have hnd2 : ((tableAssignments (p :: ps)).map (fun q => q.1)).Nodup := by
      rw [tableAssignments_keys]; exact hnd
    exact applyAssignments_mem _ _ k c hnd2 hmem

/-- The codelength stored for a leaf symbol is its depth. -/
theorem buildTable_codelength (ls : List (Nat × Nat)) (t : CodeTable)
    (ht : _buildTable ls = some t) (k d : Nat)
    (hnd : (ls.map (fun p => p.1)).Nodup) (hmem : (k, d) ∈ ls) :
    (t.codes k).codelength = d := by
  rcases tableAssignments_mem_of_leaf ls k d hmem with ⟨c, hc, hlen⟩
  rw [buildTable_lookup_mem ls t ht k c hnd hc]
  exact hlen

/- ### Sorted-leaves facts -/

theorem sortLeaves_perm (l : List (Nat × Nat)) : (sortLeaves l).Perm l :=
  List.perm_insertionSort leafLe l

theorem sortLeaves_sorted (l : List (Nat × Nat)) : List.Sorted leafLe (sortLeaves l) :=
  List.sorted_insertionSort leafLe l

theorem sortLeaves_depths_antitone (l : List (Nat × Nat)) :
    List.Pairwise (fun a b : Nat × Nat => b.2 ≤ a.2) (sortLeaves l) := by
  have h := sortLeaves_sorted l
  refine List.Pairwise.imp ?_ h
  intro a b hab
  rw [leafLe_iff] at hab
  omega

/-- In a list sorted by leafLe, the head depth bounds every depth. -/
theorem sorted_head_depth_ge (p : Nat × Nat) (ps : List (Nat × Nat))
    (h : List.Pairwise (fun a b : Nat × Nat => b.2 ≤ a.2) (p :: ps)) :
    ∀ q ∈ p :: ps, q.2 ≤ p.2 := by
  intro q hq
  rcases List.mem_cons.mp hq with h1 | h1
  · subst h1; exact le_refl _
  · exact (List.pairwise_cons.mp h).1 q h1

/- ### Canonical-code interval invariants

Scaling every code to a common width L, the code (pattern, len) covers
the half-open interval [pattern * 2^(L-len), (pattern+1) * 2^(L-len)).
The increment-then-shift walk of _buildTable makes these intervals
consecutive when the depth multiset satisfies the Kraft equality, and
keeps every pattern inside its width whenever the Kraft sum is at most
2^L. -/

theorem nextCode_codelength (last : Code) (d : Nat) : (nextCode last d).codelength = d := by
  unfold nextCode
  split <;> rfl

theorem startOf_le_endOf (L : Nat) (c : Code) : startOf L c ≤ endOf L c :=
  Nat.mul_le_mul_right _ (Nat.le_succ _)

theorem startOf_lt_endOf (L : Nat) (c : Code) : startOf L c < endOf L c := by
  have h : 0 < 2 ^ (L - c.codelength) := Nat.pos_pow_of_pos _ (by omega)
  exact mul_lt_mul_of_pos_right (Nat.lt_succ_self c.code) h

/-- Splitting the common-width power across a depth within bounds. -/
theorem pow_split (L lc d : Nat) (h1 : d ≤ lc) (h2 : lc ≤ L) :
    2 ^ (L - d) = 2 ^ (lc - d) * 2 ^ (L - lc) := by
  rw [← pow_add]
  congr 1
  omega

/-- The next interval never ends more than one weight past the last. -/
theorem endOf_nextCode_le (L : Nat) (last : Code) (d : Nat)
    (hd : d ≤ last.codelength) (hL : last.codelength ≤ L) :
    endOf L (nextCode last d) ≤ endOf L last + 2 ^ (L - d) := by
  unfold nextCode
  split
  · rename_i heq
    subst heq
    unfold endOf CodeMake
    simp only
    ring_nf
    omega
  · rename_i hne
    have hlt : d < last.codelength := by omega
    unfold endOf CodeMake
    simp only
    rw [Nat.shiftRight_eq_div_pow]
    have hdm : (last.code + 1) / 2 ^ (last.codelength - d) * 2 ^ (last.codelength - d) ≤
        last.code + 1 := Nat.div_mul_le_self _ _
    have hsplit := pow_split L last.codelength d hd hL
    calc ((last.code + 1) / 2 ^ (last.codelength - d) + 1) * 2 ^ (L - d)
        = (last.code + 1) / 2 ^ (last.codelength - d) * 2 ^ (L - d) + 2 ^ (L - d) := by ring
      _ = (last.code + 1) / 2 ^ (last.codelength - d) * 2 ^ (last.codelength - d) *
            2 ^ (L - last.codelength) + 2 ^ (L - d) := by rw [hsplit]; ring
      _ ≤ (last.code + 1) * 2 ^ (L - last.codelength) + 2 ^ (L - d) :=
            Nat.add_le_add_right (Nat.mul_le_mul_right _ hdm) _

/-- When the previous interval end is aligned to the next width, the
next interval starts exactly at the previous end. -/
theorem nextCode_exact (L : Nat) (last : Code) (d : Nat)
    (hd : d ≤ last.codelength) (hL : last.codelength ≤ L)
    (hdvd : 2 ^ (L - d) ∣ endOf L last) :
    startOf L (nextCode last d) = endOf L last ∧
    endOf L (nextCode last d) = endOf L last + 2 ^ (L - d) := by
  unfold nextCode
  split
  · rename_i heq
    subst heq
    constructor
    · unfold startOf endOf CodeMake
      simp only
    · unfold endOf CodeMake
      simp only
      ring
  · rename_i hne
    have hlt : d < last.codelength := by omega
    have hsplit := pow_split L last.codelength d hd hL
    have hpos : 0 < 2 ^ (L - last.codelength) := Nat.pos_pow_of_pos _ (by omega)
    have hdvd2 : 2 ^ (last.codelength - d) ∣ last.code + 1 := by
      rcases hdvd with ⟨m, hm⟩
      unfold endOf at hm
      rw [hsplit] at hm
      have : (last.code + 1) * 2 ^ (L - last.codelength) =
          m * 2 ^ (last.codelength - d) * 2 ^ (L - last.codelength) := by
        rw [hm]; ring
      have hc := Nat.eq_of_mul_eq_mul_right hpos this
      exact ⟨m, by rw [hc, Nat.mul_comm]⟩
    have hexact : (last.code + 1) / 2 ^ (last.codelength - d) * 2 ^ (last.codelength - d) =
        last.code + 1 := Nat.div_mul_cancel hdvd2
    constructor
    · unfold startOf endOf CodeMake
      simp only
      rw [Nat.shiftRight_eq_div_pow, hsplit]
      calc (last.code + 1) / 2 ^ (last.codelength - d) *
            (2 ^ (last.codelength - d) * 2 ^ (L - last.codelength))
          = (last.code + 1) / 2 ^ (last.codelength - d) * 2 ^ (last.codelength - d) *
              2 ^ (L - last.codelength) := by ring
        _ = (last.code + 1) * 2 ^ (L - last.codelength) := by rw [hexact]
    · unfold endOf CodeMake
      simp only
      rw [Nat.shiftRight_eq_div_pow, hsplit]
      calc ((last.code + 1) / 2 ^ (last.codelength - d) + 1) *
            (2 ^ (last.codelength - d) * 2 ^ (L - last.codelength))
          = (last.code + 1) / 2 ^ (last.codelength - d) * 2 ^ (last.codelength - d) *
              2 ^ (L - last.codelength) +
              2 ^ (last.codelength - d) * 2 ^ (L - last.codelength) := by ring
        _ = (last.code + 1) * 2 ^ (L - last.codelength) +
              2 ^ (last.codelength - d) * 2 ^ (L - last.codelength) := by rw [hexact]

/-- Every weight of a list whose depths are bounded by k is divisible
by the weight of depth k. -/
theorem pow_dvd_sumW (L k : Nat) (ls : List (Nat × Nat)) (h : ∀ q ∈ ls, q.2 ≤ k) :
    2 ^ (L - k) ∣ sumW L ls := by
  induction ls with
  | nil => simp [sumW]
  | cons q qs ih =>
    have h1 : 2 ^ (L - k) ∣ 2 ^ (L - q.2) :=
      pow_dvd_pow 2 (Nat.sub_le_sub_left (h q (List.mem_cons_self q qs)) L)
    have h2 := ih (fun r hr => h r (List.mem_cons_of_mem q hr))
    unfold sumW at *
    simp only [List.map_cons, List.sum_cons]
    exact Nat.dvd_add h1 h2

/-- Width-bound invariant: if the interval end of the previous code
plus the remaining weight stays within 2^L, every further pattern fits
in its own codelength. -/
theorem assign_bound (L : Nat) (ls : List (Nat × Nat)) :
    ∀ last : Code,
    (∀ p ∈ ls, p.2 ≤ last.codelength) →
    List.Pairwise (fun a b : Nat × Nat => b.2 ≤ a.2) ls →
    last.codelength ≤ L →
    endOf L last + sumW L ls ≤ 2 ^ L →
    ∀ q ∈ assignAll last ls, q.2.code + 1 ≤ 2 ^ q.2.codelength := by
  induction ls with
  | nil =>
    intro last _ _ _ _ q hq
    simp [assignAll] at hq
  | cons p ps ih =>
    intro last hle hpw hLc hinv q hq
    have hdp : p.2 ≤ last.codelength := hle p (List.mem_cons_self p ps)
    have hsum : sumW L (p :: ps) = 2 ^ (L - p.2) + sumW L ps := by
      unfold sumW
      simp
    have hend := endOf_nextCode_le L last p.2 hdp hLc
    have hinv2 : endOf L (nextCode last p.2) + sumW L ps ≤ 2 ^ L := by omega
    have hlen2 : (nextCode last p.2).codelength = p.2 := nextCode_codelength last p.2
    rcases List.mem_cons.mp hq with h1 | h1
    · subst h1
      simp only
      rw [hlen2]
      have hWeq : 2 ^ L = 2 ^ p.2 * 2 ^ (L - p.2) := by
        rw [← pow_add]
        congr 1
        omega
      have h3 : endOf L (nextCode last p.2) ≤ 2 ^ L := by omega
      unfold endOf at h3
      rw [hlen2, hWeq] at h3
      have hpos : 0 < 2 ^ (L - p.2) := Nat.pos_pow_of_pos _ (by omega)
      exact Nat.le_of_mul_le_mul_right h3 hpos
    · have hle2 : ∀ r ∈ ps, r.2 ≤ (nextCode last p.2).codelength := by
        rw [hlen2]
        exact fun r hr => (List.pairwise_cons.mp hpw).1 r hr
      have hLc2 : (nextCode last p.2).codelength ≤ L := by rw [hlen2]; omega
      exact ih (nextCode last p.2) hle2 (List.pairwise_cons.mp hpw).2 hLc2 hinv2 q h1

/-- Disjointness invariant under the Kraft equality: the intervals of
the previous code and of all further codes are pairwise ordered. -/
theorem assign_disjoint (L : Nat) (ls : List (Nat × Nat)) :
    ∀ last : Code,
    (∀ p ∈ ls, p.2 ≤ last.codelength) →
    List.Pairwise (fun a b : Nat × Nat => b.2 ≤ a.2) ls →
    last.codelength ≤ L →
    endOf L last + sumW L ls = 2 ^ L →
    List.Pairwise (fun a b : Code => endOf L a ≤ startOf L b)
      (last :: (assignAll last ls).map (fun q => q.2)) := by
  induction ls with
  | nil =>
    intro last _ _ _ _
    simp [assignAll]
  | cons p ps ih =>
    intro last hle hpw hLc hinv
    have hdp : p.2 ≤ last.codelength := hle p (List.mem_cons_self p ps)
    have hsum : sumW L (p :: ps) = 2 ^ (L - p.2) + sumW L ps := by
      unfold sumW
      simp
    have hdvd : 2 ^ (L - p.2) ∣ endOf L last := by
      have h2 : 2 ^ (L - p.2) ∣ 2 ^ L := pow_dvd_pow 2 (Nat.sub_le L p.2)
      have h3 : 2 ^ (L - p.2) ∣ sumW L (p :: ps) := by
        refine pow_dvd_sumW L p.2 (p :: ps) ?_
        intro q hq
        rcases List.mem_cons.mp hq with h | h
        · subst h; exact le_refl _
        · exact (List.pairwise_cons.mp hpw).1 q h
      have h4 : endOf L last = 2 ^ L - sumW L (p :: ps) := by omega
      rw [h4]
      exact Nat.dvd_sub' h2 h3
    rcases nextCode_exact L last p.2 hdp hLc hdvd with ⟨hstart, hend⟩
    have hinv2 : endOf L (nextCode last p.2) + sumW L ps = 2 ^ L := by omega
    have hlen2 : (nextCode last p.2).codelength = p.2 := nextCode_codelength last p.2
    have hle2 : ∀ r ∈ ps, r.2 ≤ (nextCode last p.2).codelength := by
      rw [hlen2]
      exact fun r hr => (List.pairwise_cons.mp hpw).1 r hr
    have hLc2 : (nextCode last p.2).codelength ≤ L := by rw [hlen2]; omega
    have hih := ih (nextCode last p.2) hle2 (List.pairwise_cons.mp hpw).2 hLc2 hinv2
    simp only [assignAll, List.map_cons]
    refine List.pairwise_cons.mpr ⟨?_, hih⟩
    intro c hc
    rcases List.mem_cons.mp hc with h | h
    · subst h
      omega
    · have h5 : endOf L (nextCode last p.2) ≤ startOf L c :=
        (List.pairwise_cons.mp hih).1 c h
      have h6 := startOf_le_endOf L (nextCode last p.2)
      omega

/-- A prefix relation between codes nests their scaled intervals. -/
theorem isPrefixCode_nests (L : Nat) (a b : Code) (hp : isPrefixCode a b)
    (hbL : b.codelength ≤ L) :
    startOf L a ≤ startOf L b ∧ endOf L b ≤ endOf L a := by
  rcases hp with ⟨hlen, hshift⟩
  rw [Nat.shiftRight_eq_div_pow] at hshift
  have hsplit := pow_split L b.codelength a.codelength hlen hbL
  constructor
  · unfold startOf
    rw [hsplit, ← hshift]
    have h1 : b.code / 2 ^ (b.codelength - a.codelength) * 2 ^ (b.codelength - a.codelength) ≤
        b.code := Nat.div_mul_le_self _ _
    calc b.code / 2 ^ (b.codelength - a.codelength) *
          (2 ^ (b.codelength - a.codelength) * 2 ^ (L - b.codelength))
        = b.code / 2 ^ (b.codelength - a.codelength) * 2 ^ (b.codelength - a.codelength) *
            2 ^ (L - b.codelength) := by ring
      _ ≤ b.code * 2 ^ (L - b.codelength) := Nat.mul_le_mul_right _ h1
  · unfold endOf
    rw [hsplit, ← hshift]
    have hpos : 0 < 2 ^ (b.codelength - a.codelength) :=
      Nat.pos_pow_of_pos _ (by omega)
    have h1 : b.code + 1 ≤ (b.code / 2 ^ (b.codelength - a.codelength) + 1) *
        2 ^ (b.codelength - a.codelength) := by
      have hmod : b.code % 2 ^ (b.codelength - a.codelength) <
          2 ^ (b.codelength - a.codelength) := Nat.mod_lt _ hpos
      have hdm : 2 ^ (b.codelength - a.codelength) *
          (b.code / 2 ^ (b.codelength - a.codelength)) +
          b.code % 2 ^ (b.codelength - a.codelength) = b.code := Nat.div_add_mod _ _
      have hexp : (b.code / 2 ^ (b.codelength - a.codelength) + 1) *
          2 ^ (b.codelength - a.codelength) =
          2 ^ (b.codelength - a.codelength) *
          (b.code / 2 ^ (b.codelength - a.codelength)) +
          2 ^ (b.codelength - a.codelength) := by ring
      omega
    calc (b.code + 1) * 2 ^ (L - b.codelength)
        ≤ (b.code / 2 ^ (b.codelength - a.codelength) + 1) *
            2 ^ (b.codelength - a.codelength) * 2 ^ (L - b.codelength) :=
          Nat.mul_le_mul_right _ h1
      _ = (b.code / 2 ^ (b.codelength - a.codelength) + 1) *
            (2 ^ (b.codelength - a.codelength) * 2 ^ (L - b.codelength)) := by ring

/-- Two codes with ordered disjoint intervals are never in a prefix
relation. -/
theorem no_prefix_of_disjoint (L : Nat) (a b : Code)
    (haL : a.codelength ≤ L) (hbL : b.codelength ≤ L)
    (hdis : endOf L a ≤ startOf L b ∨ endOf L b ≤ startOf L a) :
    ¬ isPrefixCode a b := by
  intro hp
  rcases isPrefixCode_nests L a b hp hbL with ⟨h1, h2⟩
  have h3 := startOf_lt_endOf L a
  have h4 := startOf_lt_endOf L b
  rcases hdis with h | h <;> omega

/-- Among distinct members of a pairwise-ordered list, the relation
holds in one direction. -/
theorem pairwise_of_mem_distinct {α : Type} (R : α → α → Prop) (l : List α)
    (h : List.Pairwise R l) (x y : α) (hx : x ∈ l) (hy : y ∈ l) (hxy : x ≠ y) :
    R x y ∨ R y x := by
  rcases List.mem_iff_getElem.mp hx with ⟨i, hi, hgx⟩
  rcases List.mem_iff_getElem.mp hy with ⟨j, hj, hgy⟩
  rcases lt_trichotomy i j with hij | hij | hij
  · left
    rw [← hgx, ← hgy]
    exact List.pairwise_iff_getElem.mp h i j hi hj hij
  · exfalso
    apply hxy
    rw [← hgx, ← hgy]
    subst hij
    rfl
  · right
    rw [← hgx, ← hgy]
    exact List.pairwise_iff_getElem.mp h j i hj hi hij

/-- A symbol with a positive stored codelength is one of the leaves and
carries its assigned code. -/
theorem assigned_mem (ls : List (Nat × Nat)) (t : CodeTable)
    (ht : _buildTable ls = some t) (hnd : (ls.map (fun p => p.1)).Nodup) (s : Nat)
    (h1 : 0 < (t.codes s).codelength) :
    ∃ c, (s, c) ∈ tableAssignments ls ∧ t.codes s = c := by
  by_cases hmem : s ∈ ls.map (fun p => p.1)
  · have h2 : s ∈ (tableAssignments ls).map (fun q => q.1) := by
      rw [tableAssignments_keys]
      exact hmem
    rcases List.mem_map.mp h2 with ⟨q, hq, hq1⟩
    have h3 : (s, q.2) ∈ tableAssignments ls := by
      have : q = (s, q.2) := by
        rw [← hq1]
      rw [← this]
      exact hq
    exact ⟨q.2, h3, buildTable_lookup_mem ls t ht s q.2 hnd h3⟩
  · rw [buildTable_lookup_notMem ls t ht s hmem] at h1
    simp [zeroCode] at h1

/-- All assigned codelengths are bounded by the depth of the first
sorted leaf. -/
theorem tableAssignments_codelength_le (p : Nat × Nat) (ps : List (Nat × Nat))
    (hpw : List.Pairwise (fun a b : Nat × Nat => b.2 ≤ a.2) (p :: ps)) :
    ∀ q ∈ tableAssignments (p :: ps), q.2.codelength ≤ p.2 := by
  intro q hq
  have h1 : (q.1, q.2.codelength) ∈ (p :: ps) := by
    rw [← tableAssignments_lengths (p :: ps)]
    exact List.mem_map_of_mem _ hq
  exact sorted_head_depth_ge p ps hpw _ h1

/-- Prefix-freeness of a built table when the sorted depth multiset
meets the Kraft equality (scaled to the first, longest depth). -/
theorem buildTable_prefixFree (p : Nat × Nat) (ps : List (Nat × Nat)) (t : CodeTable)
    (ht : _buildTable (p :: ps) = some t)
    (hpw : List.Pairwise (fun a b : Nat × Nat => b.2 ≤ a.2) (p :: ps))
    (hnd : ((p :: ps).map (fun q => q.1)).Nodup)
    (hkraft : sumW p.2 (p :: ps) = 2 ^ p.2) :
    tablePrefixFree t := by
  have hsum : sumW p.2 (p :: ps) = 2 ^ (p.2 - p.2) + sumW p.2 ps := by
    unfold sumW
    simp
  have hfe : endOf p.2 (CodeMake p.2 0) = 1 := by
    unfold endOf CodeMake
    simp
  have hinv : endOf p.2 (CodeMake p.2 0) + sumW p.2 ps = 2 ^ p.2 := by
    rw [hfe]
    have h0 : p.2 - p.2 = 0 := by omega
    rw [h0] at hsum
    simp at hsum
    omega
  have hle : ∀ q ∈ ps, q.2 ≤ (CodeMake p.2 0).codelength :=
    fun q hq => (List.pairwise_cons.mp hpw).1 q hq
  have hdisj := assign_disjoint p.2 ps (CodeMake p.2 0) hle
    (List.pairwise_cons.mp hpw).2 (le_refl _) hinv
  have hmapeq : (tableAssignments (p :: ps)).map (fun q => q.2) =
      CodeMake p.2 0 :: (assignAll (CodeMake p.2 0) ps).map (fun q => q.2) := by
    simp [tableAssignments]
  have hpair : List.Pairwise
      (fun a b : Nat × Code => endOf p.2 a.2 ≤ startOf p.2 b.2)
      (tableAssignments (p :: ps)) := by
    have h2 : List.Pairwise (fun a b : Code => endOf p.2 a ≤ startOf p.2 b)
        ((tableAssignments (p :: ps)).map (fun q => q.2)) := by
      rw [hmapeq]
      exact hdisj
    exact List.pairwise_map.mp h2
  intro s hs u hu hne hs1 hu1
  rcases assigned_mem (p :: ps) t ht hnd s hs1 with ⟨cs, hcs, hseq⟩
  rcases assigned_mem (p :: ps) t ht hnd u hu1 with ⟨cu, hcu, hueq⟩
  have hd : ((s, cs) : Nat × Code) ≠ (u, cu) := by
    intro h
    exact hne (congrArg Prod.fst h)
  have hdis := pairwise_of_mem_distinct _ _ hpair (s, cs) (u, cu) hcs hcu hd
  have hlcs : cs.codelength ≤ p.2 := tableAssignments_codelength_le p ps hpw (s, cs) hcs
  have hlcu : cu.codelength ≤ p.2 := tableAssignments_codelength_le p ps hpw (u, cu) hcu
  rw [hseq, hueq]
  exact no_prefix_of_disjoint p.2 cs cu hlcs hlcu hdis

/-- Every assigned pattern fits in its own codelength whenever the
scaled depth weights total at most 2 to the first depth. -/
theorem buildTable_bound (p : Nat × Nat) (ps : List (Nat × Nat)) (t : CodeTable)
    (ht : _buildTable (p :: ps) = some t)
    (hpw : List.Pairwise (fun a b : Nat × Nat => b.2 ≤ a.2) (p :: ps))
    (hnd : ((p :: ps).map (fun q => q.1)).Nodup)
    (hkraft : sumW p.2 (p :: ps) ≤ 2 ^ p.2) :
    ∀ s, 0 < (t.codes s).codelength →
      (t.codes s).code < 2 ^ (t.codes s).codelength := by
  intro s hs
  rcases assigned_mem (p :: ps) t ht hnd s hs with ⟨c, hc, hseq⟩
  rw [hseq]
  have hsum : sumW p.2 (p :: ps) = 2 ^ (p.2 - p.2) + sumW p.2 ps := by
    unfold sumW
    simp
  have hfe : endOf p.2 (CodeMake p.2 0) = 1 := by
    unfold endOf CodeMake
    simp
  have hinv : endOf p.2 (CodeMake p.2 0) + sumW p.2 ps ≤ 2 ^ p.2 := by
    rw [hfe]
    have h0 : p.2 - p.2 = 0 := by omega
    rw [h0] at hsum
    simp at hsum
    omega
  have hle : ∀ q ∈ ps, q.2 ≤ (CodeMake p.2 0).codelength :=
    fun q hq => (List.pairwise_cons.mp hpw).1 q hq
  rcases List.mem_cons.mp hc with h1 | h1
  · have : c = CodeMake p.2 0 := congrArg Prod.snd h1
    rw [this]
    exact Nat.pos_pow_of_pos _ (by omega)
  · have hb := assign_bound p.2 ps (CodeMake p.2 0) hle
      (List.pairwise_cons.mp hpw).2 (le_refl _) hinv (s, c) h1
    have hb2 : c.code + 1 ≤ 2 ^ c.codelength := hb
    omega

/- ### Kraft sums: rational versus scaled -/

theorem kraftQ_perm (l1 l2 : List (Nat × Nat)) (h : l1.Perm l2) : kraftQ l1 = kraftQ l2 :=
  (h.map _).sum_eq

theorem half_pow_mul (d L : Nat) (h : d ≤ L) :
    (1 / 2 : ℚ) ^ d * 2 ^ L = 2 ^ (L - d) := by
  have hL : d + (L - d) = L := by omega
  calc (1 / 2 : ℚ) ^ d * 2 ^ L = (1 / 2 : ℚ) ^ d * 2 ^ (d + (L - d)) := by rw [hL]
    _ = (1 / 2 : ℚ) ^ d * (2 ^ d * 2 ^ (L - d)) := by rw [pow_add]
    _ = ((1 / 2 : ℚ) * 2) ^ d * 2 ^ (L - d) := by rw [mul_pow]; ring
    _ = 2 ^ (L - d) := by norm_num

theorem kraftQ_scaled (L : Nat) (ls : List (Nat × Nat)) (h : ∀ p ∈ ls, p.2 ≤ L) :
    kraftQ ls * 2 ^ L = (sumW L ls : ℚ) := by
  induction ls with
  | nil => simp [kraftQ, sumW]
  | cons p ps ih =>
    have hp : p.2 ≤ L := h p (List.mem_cons_self p ps)
    have hsum : sumW L (p :: ps) = 2 ^ (L - p.2) + sumW L ps := by
      unfold sumW
      simp
    have hkq : kraftQ (p :: ps) = (1 / 2 : ℚ) ^ p.2 + kraftQ ps := by
      unfold kraftQ
      simp
    rw [hsum, hkq, add_mul, ih (fun q hq => h q (List.mem_cons_of_mem p hq))]
    push_cast
    rw [half_pow_mul p.2 L hp]

theorem sumW_eq_of_kraft_eq (L : Nat) (ls : List (Nat × Nat))
    (h : ∀ p ∈ ls, p.2 ≤ L) (hk : kraftQ ls = 1) : sumW L ls = 2 ^ L := by
  have hs := kraftQ_scaled L ls h
  rw [hk, one_mul] at hs
  have h2 : ((2 ^ L : ℕ) : ℚ) = (sumW L ls : ℚ) := by
    push_cast
    exact hs
  exact_mod_cast h2.symm

theorem sumW_le_of_kraft_le (L : Nat) (ls : List (Nat × Nat))
    (h : ∀ p ∈ ls, p.2 ≤ L) (hk : kraftQ ls ≤ 1) : sumW L ls ≤ 2 ^ L := by
  have hs := kraftQ_scaled L ls h
  have h0 : (0 : ℚ) ≤ 2 ^ L := by positivity
  have h1 : kraftQ ls * 2 ^ L ≤ 1 * 2 ^ L := mul_le_mul_of_nonneg_right hk h0
  rw [one_mul, hs] at h1
  have h2 : (sumW L ls : ℚ) ≤ ((2 ^ L : ℕ) : ℚ) := by
    push_cast
    exact h1
  exact_mod_cast h2

/- ### Keys of the leaf lists -/

theorem keys_sublist_of_filterMap (f : Nat → Option (Nat × Nat))
    (hf : ∀ i p, f i = some p → p.1 = i) (l : List Nat) :
    ((l.filterMap f).map (fun p => p.1)).Sublist l := by
  induction l with
  | nil => simp
  | cons a as ih =>
    cases hfa : f a with
    | none =>
      rw [List.filterMap_cons_none hfa]
      exact ih.cons a
    | some p =>
      rw [List.filterMap_cons_some hfa]
      have h1 : p.1 = a := hf a p hfa
      simp only [List.map_cons, h1]
      exact ih.cons₂ a

theorem lengthsLeaves_keys_sublist (fd : List Nat) :
    ((lengthsLeaves fd).map (fun p => p.1)).Sublist (List.range ALPHABET_SIZE) := by
  unfold lengthsLeaves
  refine keys_sublist_of_filterMap _ ?_ _
  intro i p h
  split at h
  · cases h
    rfl
  · cases h

theorem lengthsLeaves_keys_nodup (fd : List Nat) :
    ((lengthsLeaves fd).map (fun p => p.1)).Nodup :=
  (lengthsLeaves_keys_sublist fd).nodup (List.nodup_range _)

theorem sortLeaves_keys_nodup (l : List (Nat × Nat))
    (h : (l.map (fun p => p.1)).Nodup) :
    ((sortLeaves l).map (fun p => p.1)).Nodup :=
  (((sortLeaves_perm l).map (fun p => p.1)).nodup_iff).mpr h

/- ### The indexed recurrence of the assignment walk -/

theorem assignAll_length (last : Code) (ls : List (Nat × Nat)) :
    (assignAll last ls).length = ls.length := by
  induction ls generalizing last with
  | nil => rfl
  | cons p ps ih => simp [assignAll, ih]

theorem tableAssignments_length (ls : List (Nat × Nat)) :
    (tableAssignments ls).length = ls.length := by
  cases ls with
  | nil => rfl
  | cons p ps => simp [tableAssignments, assignAll_length]

theorem assignAll_succ (ls : List (Nat × Nat)) (last : Code) (i : Nat)
    (h : i + 1 < ls.length) :
    (assignAll last ls).getD (i + 1) (0, zeroCode) =
      ((ls.getD (i + 1) (0, 0)).1,
        nextCode ((assignAll last ls).getD i (0, zeroCode)).2 (ls.getD (i + 1) (0, 0)).2) := by
  induction ls generalizing last i with
  | nil => simp at h
  | cons p ps ih =>
    cases i with
    | zero =>
      cases ps with
      | nil => simp at h
      | cons q qs => simp [assignAll]
    | succ j =>
      have h2 : j + 1 < ps.length := by
        simp at h
        omega
      simp only [assignAll, List.getD_cons_succ]
      exact ih (nextCode last p.2) j h2

theorem tableAssignments_succ (ls : List (Nat × Nat)) (i : Nat)
    (h : i + 1 < ls.length) :
    (tableAssignments ls).getD (i + 1) (0, zeroCode) =
      ((ls.getD (i + 1) (0, 0)).1,
        nextCode ((tableAssignments ls).getD i (0, zeroCode)).2 (ls.getD (i + 1) (0, 0)).2) := by
  cases ls with
  | nil => simp at h
  | cons p ps =>
    cases i with
    | zero =>
      cases ps with
      | nil => simp at h
      | cons q qs => simp [tableAssignments, assignAll]
    | succ j =>
      have h2 : j + 1 < ps.length := by
        simp at h
        omega
      simp only [tableAssignments, List.getD_cons_succ]
      exact assignAll_succ ps (CodeMake p.2 0) j h2

theorem tableAssignments_symbol (ls : List (Nat × Nat)) (i : Nat) :
    ((tableAssignments ls).getD i (0, zeroCode)).1 = (ls.getD i (0, 0)).1 := by
  have h := tableAssignments_keys ls
  have h1 := List.getD_map (n := i) (l := tableAssignments ls)
    (fun q : Nat × Code => q.1) (d := (0, zeroCode))
  rw [h] at h1
  have h2 := List.getD_map (n := i) (l := ls) (fun p : Nat × Nat => p.1) (d := (0, 0))
  simp only at h1 h2
  rw [← h1, ← h2]

theorem tableAssignments_getD_codelength (ls : List (Nat × Nat)) (i : Nat)
    (h : i < ls.length) :
    ((tableAssignments ls).getD i (0, zeroCode)).2.codelength = (ls.getD i (0, 0)).2 := by
  have hmap := tableAssignments_lengths ls
  have h1 := List.getD_map (n := i) (l := tableAssignments ls)
    (fun q : Nat × Code => (q.1, q.2.codelength)) (d := (0, zeroCode))
  rw [hmap] at h1
  have : (ls.getD i ((fun q : Nat × Code => (q.1, q.2.codelength)) (0, zeroCode))) =
      ls.getD i (0, 0) := by
    rw [List.getD_eq_getElem _ _ (by omega), List.getD_eq_getElem _ _ (by omega)]
  rw [this] at h1
  have h2 := congrArg Prod.snd h1
  simpa using h2.symm

/- ### Claim C1 -/

/-- C1: the builder processes the pairs sorted descending by length and,
for equal length, ascending by symbol; the first sorted entry is
assigned bit-pattern 0 at its own length; every later entry is derived
from the previous assignment by adding one to the pattern when the
lengths are equal, and by adding one and right-shifting by the length
difference when the length is shorter, always carrying its own length. -/
theorem claim_canonical_code_assignment (pairs : List (Nat × Nat))
    (hne : pairs ≠ []) (hlen : ∀ p ∈ pairs, 1 ≤ p.2) :
    (sortLeaves pairs).Perm pairs ∧
    List.Pairwise (fun a b : Nat × Nat => b.2 < a.2 ∨ (b.2 = a.2 ∧ a.1 ≤ b.1))
      (sortLeaves pairs) ∧
    (∀ i, i < (sortLeaves pairs).length →
      ((tableAssignments (sortLeaves pairs)).getD i (0, zeroCode)).1 =
        ((sortLeaves pairs).getD i (0, 0)).1 ∧
      ((tableAssignments (sortLeaves pairs)).getD i (0, zeroCode)).2.codelength =
        ((sortLeaves pairs).getD i (0, 0)).2) ∧
    ((tableAssignments (sortLeaves pairs)).getD 0 (0, zeroCode)).2 =
      Code.mk 0 (((sortLeaves pairs).getD 0 (0, 0)).2) ∧
    (∀ i, i + 1 < (sortLeaves pairs).length →
      ((tableAssignments (sortLeaves pairs)).getD (i + 1) (0, zeroCode)).2 =
        (if ((sortLeaves pairs).getD (i + 1) (0, 0)).2 =
            ((tableAssignments (sortLeaves pairs)).getD i (0, zeroCode)).2.codelength
         then Code.mk
            (((tableAssignments (sortLeaves pairs)).getD i (0, zeroCode)).2.code + 1)
            (((sortLeaves pairs).getD (i + 1) (0, 0)).2)
         else Code.mk
            ((((tableAssignments (sortLeaves pairs)).getD i (0, zeroCode)).2.code + 1) >>>
              (((tableAssignments (sortLeaves pairs)).getD i (0, zeroCode)).2.codelength -
                ((sortLeaves pairs).getD (i + 1) (0, 0)).2))
            (((sortLeaves pairs).getD (i + 1) (0, 0)).2))) := by
  refine ⟨sortLeaves_perm pairs, ?_, ?_, ?_, ?_⟩
  · refine List.Pairwise.imp ?_ (sortLeaves_sorted pairs)
    intro a b hab
    rw [leafLe_iff] at hab
    omega
  · intro i hi
    exact ⟨tableAssignments_symbol (sortLeaves pairs) i,
      tableAssignments_getD_codelength (sortLeaves pairs) i hi⟩
  · cases hs : sortLeaves pairs with
    | nil =>
      exfalso
      have := sortLeaves_perm pairs
      rw [hs] at this
      exact hne (this.nil_eq).symm
    | cons p ps => simp [tableAssignments, CodeMake]
  · intro i hi
    have h := tableAssignments_succ (sortLeaves pairs) i hi
    rw [h]
    simp only
    unfold nextCode CodeMake
    split <;> simp

/-- Witness for C1 at the concrete pair list [(0, 1), (1, 2), (2, 2)]. -/
theorem claim_canonical_code_assignment_witness :
    ([((0 : Nat), (1 : Nat)), (1, 2), (2, 2)] ≠ ([] : List (Nat × Nat))) ∧
    (∀ p ∈ [((0 : Nat), (1 : Nat)), (1, 2), (2, 2)], 1 ≤ p.2) ∧
    (sortLeaves [((0 : Nat), (1 : Nat)), (1, 2), (2, 2)]).Perm
      [((0 : Nat), (1 : Nat)), (1, 2), (2, 2)] :=
  ⟨by decide, by decide,
    (claim_canonical_code_assignment [((0 : Nat), (1 : Nat)), (1, 2), (2, 2)]
      (by decide) (by decide)).1⟩

/- ### Claims C4 and C10 -/

theorem buildFromLengths_eq (fd : List Nat) (h : fd.length = ALPHABET_SIZE) :
    buildFromLengths fd = _buildTable (sortLeaves (lengthsLeaves fd)) := by
  unfold buildFromLengths
  rw [if_pos h]

/-- C10: a pattern-width invariant of tables built from a length
multiset obeying the Kraft inequality: every assigned pattern is
strictly below 2 to its own codelength. -/
theorem claim_pattern_width (fd : List Nat) (hlen : fd.length = ALPHABET_SIZE)
    (hk : kraftOfLengths fd ≤ 1) (t : CodeTable) (ht : buildFromLengths fd = some t) :
    ∀ s, 0 < (t.codes s).codelength →
      (t.codes s).code < 2 ^ (t.codes s).codelength := by
  rw [buildFromLengths_eq fd hlen] at ht
  have hpw0 := sortLeaves_depths_antitone (lengthsLeaves fd)
  have hnd0 := sortLeaves_keys_nodup (lengthsLeaves fd) (lengthsLeaves_keys_nodup fd)
  have hperm := sortLeaves_perm (lengthsLeaves fd)
  cases hs : sortLeaves (lengthsLeaves fd) with
  | nil =>
    rw [hs] at ht
    simp [_buildTable] at ht
  | cons p ps =>
    rw [hs] at ht hpw0 hnd0 hperm
    have hbound : ∀ q ∈ p :: ps, q.2 ≤ p.2 := sorted_head_depth_ge p ps hpw0
    have hkq : kraftQ (p :: ps) = kraftOfLengths fd := kraftQ_perm _ _ hperm
    have hsw : sumW p.2 (p :: ps) ≤ 2 ^ p.2 :=
      sumW_le_of_kraft_le p.2 (p :: ps) hbound (by rw [hkq]; exact hk)
    exact buildTable_bound p ps t ht hpw0 hnd0 hsw

/-- C4 (amended): prefix-freeness of built tables holds under the Kraft
equality (scaled sum exactly one). -/
theorem claim_prefix_free_kraft_equality (fd : List Nat)
    (hlen : fd.length = ALPHABET_SIZE) (hk : kraftOfLengths fd = 1)
    (t : CodeTable) (ht : buildFromLengths fd = some t) : tablePrefixFree t := by
  rw [buildFromLengths_eq fd hlen] at ht
  have hpw0 := sortLeaves_depths_antitone (lengthsLeaves fd)
  have hnd0 := sortLeaves_keys_nodup (lengthsLeaves fd) (lengthsLeaves_keys_nodup fd)
  have hperm := sortLeaves_perm (lengthsLeaves fd)
  cases hs : sortLeaves (lengthsLeaves fd) with
  | nil =>
    rw [hs] at ht
    simp [_buildTable] at ht
  | cons p ps =>
    rw [hs] at ht hpw0 hnd0 hperm
    have hbound : ∀ q ∈ p :: ps, q.2 ≤ p.2 := sorted_head_depth_ge p ps hpw0
    have hkq : kraftQ (p :: ps) = kraftOfLengths fd := kraftQ_perm _ _ hperm
    have hsw : sumW p.2 (p :: ps) = 2 ^ p.2 :=
      sumW_eq_of_kraft_eq p.2 (p :: ps) hbound (by rw [hkq]; exact hk)
    exact buildTable_prefixFree p ps t ht hpw0 hnd0 hsw

/-- C4 counterexample: the length multiset of exL satisfies the Kraft
inequality, yet the built table assigns symbol 1 the pattern 0 of
length 1, a bit-prefix of the pattern 00 of length 2 assigned to
symbol 0 — so the claim fails for Kraft-satisfying (non-complete)
length multisets. -/
theorem claim_prefix_free_counterexample :
    exL.length = ALPHABET_SIZE ∧ kraftOfLengths exL ≤ 1 ∧
    buildFromLengths exL = some exT ∧
    exT.codes 0 = Code.mk 0 2 ∧ exT.codes 1 = Code.mk 0 1 ∧
    isPrefixCode (exT.codes 1) (exT.codes 0) ∧
    ¬ tablePrefixFree exT := by
  have hL : lengthsLeaves exL = [(0, 2), (1, 1)] := by decide
  refine ⟨by decide, ?_, rfl, by decide, by decide, by decide, ?_⟩
  · rw [kraftOfLengths, hL]
    unfold kraftQ
    norm_num
  · intro h
    exact (h 1 (by decide) 0 (by decide) (by decide) (by decide) (by decide)) (by decide)

/-- Witness for the amended C4 at the complete two-symbol descriptor
exL2. -/
theorem claim_prefix_free_kraft_equality_witness :
    exL2.length = ALPHABET_SIZE ∧ kraftOfLengths exL2 = 1 ∧
    buildFromLengths exL2 = some exT2 ∧ tablePrefixFree exT2 := by
  have hL : lengthsLeaves exL2 = [(0, 1), (1, 1)] := by decide
  have hk : kraftOfLengths exL2 = 1 := by
    rw [kraftOfLengths, hL]
    unfold kraftQ
    norm_num
  exact ⟨by decide, hk, rfl, claim_prefix_free_kraft_equality exL2 (by decide) hk exT2 rfl⟩

/-- Witness for C10 at exL2, checked on symbol 0. -/
theorem claim_pattern_width_witness :
    exL2.length = ALPHABET_SIZE ∧ kraftOfLengths exL2 ≤ 1 ∧
    buildFromLengths exL2 = some exT2 ∧
    0 < (exT2.codes 0).codelength ∧
    (exT2.codes 0).code < 2 ^ (exT2.codes 0).codelength := by
  have hL : lengthsLeaves exL2 = [(0, 1), (1, 1)] := by decide
  have hk : kraftOfLengths exL2 ≤ 1 := by
    rw [kraftOfLengths, hL]
    unfold kraftQ
    norm_num
  exact ⟨by decide, hk, rfl, by decide,
    claim_pattern_width exL2 (by decide) hk exT2 rfl 0 (by decide)⟩

/- ### Frequency list facts -/

theorem countFrequencies_mem (data : List Nat) (p : Nat × Nat) :
    p ∈ _countFrequencies data ↔
      p.1 < ALPHABET_SIZE ∧ p.2 = data.count p.1 ∧ 0 < data.count p.1 := by
  unfold _countFrequencies
  rw [(List.perm_insertionSort freqLe _).mem_iff, List.mem_filterMap]
  constructor
  · rintro ⟨i, hi, hf⟩
    rw [List.mem_range] at hi
    by_cases h : 0 < data.count i
    · rw [if_pos h] at hf
      cases hf
      exact ⟨hi, rfl, h⟩
    · rw [if_neg h] at hf
      cases hf
  · rintro ⟨h1, h2, h3⟩
    refine ⟨p.1, List.mem_range.mpr h1, ?_⟩
    rw [if_pos h3, ← h2]

theorem countFrequencies_keys_nodup (data : List Nat) :
    ((_countFrequencies data).map (fun p => p.1)).Nodup := by
  unfold _countFrequencies
  have hperm := (List.perm_insertionSort freqLe
    ((List.range ALPHABET_SIZE).filterMap
      (fun i => if 0 < data.count i then some (i, data.count i) else none))).map
    (fun p : Nat × Nat => p.1)
  rw [hperm.nodup_iff]
  refine List.Sublist.nodup ?_ (List.nodup_range ALPHABET_SIZE)
  refine keys_sublist_of_filterMap _ ?_ _
  intro i p h
  split at h
  · cases h
    rfl
  · cases h

theorem countFrequencies_ne_nil (data : List Nat) (hne : data ≠ [])
    (hbytes : ∀ x ∈ data, x < ALPHABET_SIZE) : _countFrequencies data ≠ [] := by
  cases data with
  | nil => exact absurd rfl hne
  | cons x xs =>
    intro h
    have hx : (x, (x :: xs).count x) ∈ _countFrequencies (x :: xs) := by
      rw [countFrequencies_mem]
      exact ⟨hbytes x (List.mem_cons_self x xs), rfl,
        List.count_pos_iff.mpr (List.mem_cons_self x xs)⟩
    rw [h] at hx
    simp at hx

/-- A filterMap keyed by a nodup list with exactly one passing key
collapses to a singleton. -/
theorem filterMap_singleton_key (X : Nat → Nat) (l : List Nat) (b : Nat)
    (hb : b ∈ l) (hnd : l.Nodup) (h : ∀ i ∈ l, 0 < X i ↔ i = b) :
    l.filterMap (fun i => if 0 < X i then some (i, X i) else none) = [(b, X b)] := by
  induction l with
  | nil => simp at hb
  | cons a as ih =>
    rw [List.nodup_cons] at hnd
    rcases List.mem_cons.mp hb with h1 | h1
    · subst h1
      have hXa : 0 < X b := (h b (List.mem_cons_self b as)).mpr rfl
      have hstep : List.filterMap (fun i => if 0 < X i then some (i, X i) else none) (b :: as) =
          (b, X b) :: List.filterMap (fun i => if 0 < X i then some (i, X i) else none) as := by
        simp [hXa]
      rw [hstep]
      congr 1
      rw [List.filterMap_eq_nil_iff]
      intro i hi
      have hni : ¬ 0 < X i := by
        rw [h i (List.mem_cons_of_mem b hi)]
        intro he
        subst he
        exact hnd.1 hi
      rw [if_neg hni]
    · have hne : a ≠ b := by
        intro he
        subst he
        exact hnd.1 h1
      have hXa : ¬ 0 < X a := by
        rw [h a (List.mem_cons_self a as)]
        exact hne
      have hstep : List.filterMap (fun i => if 0 < X i then some (i, X i) else none) (a :: as) =
          List.filterMap (fun i => if 0 < X i then some (i, X i) else none) as := by
        simp [hXa]
      rw [hstep]
      exact ih h1 hnd.2 (fun i hi => h i (List.mem_cons_of_mem a hi))

theorem countFrequencies_uniform (data : List Nat) (b : Nat) (hne : data ≠ [])
    (hb : b < ALPHABET_SIZE) (hall : ∀ x ∈ data, x = b) :
    _countFrequencies data = [(b, data.length)] := by
  have hcount : data.count b = data.length := by
    rw [List.count_eq_length]
    intro x hx
    exact (hall x hx).symm
  have hpos : 0 < data.length := by
    cases data with
    | nil => exact absurd rfl hne
    | cons x xs => simp
  have hfm : (List.range ALPHABET_SIZE).filterMap
      (fun i => if 0 < data.count i then some (i, data.count i) else none) =
      [(b, data.count b)] := by
    refine filterMap_singleton_key _ _ b (List.mem_range.mpr hb) (List.nodup_range _) ?_
    intro i hi
    constructor
    · intro hp
      have : i ∈ data := List.count_pos_iff.mp hp
      exact hall i this
    · intro he
      subst he
      omega
  unfold _countFrequencies
  rw [hfm, hcount]
  rfl

/- ### Huffman tree machinery -/

theorem listSyms_cons (p : Nat × DepthCounterNode) (l : List (Nat × DepthCounterNode)) :
    listSyms (p :: l) = treeSyms p.2 ++ listSyms l := by
  unfold listSyms
  simp

theorem insertUB_syms (key : Nat) (t : DepthCounterNode)
    (l : List (Nat × DepthCounterNode)) :
    (listSyms (insertUB key t l)).Perm (treeSyms t ++ listSyms l) := by
  induction l with
  | nil =>
    unfold insertUB listSyms
    simp
  | cons q qs ih =>
    unfold insertUB
    split
    · rw [listSyms_cons, listSyms_cons]
    · rw [listSyms_cons, listSyms_cons]
      have h1 : (treeSyms q.2 ++ listSyms (insertUB key t qs)).Perm
          (treeSyms q.2 ++ (treeSyms t ++ listSyms qs)) := ih.append_left _
      exact h1.trans (List.perm_append_comm_assoc _ _ _)

theorem insertUB_length (key : Nat) (t : DepthCounterNode)
    (l : List (Nat × DepthCounterNode)) :
    (insertUB key t l).length = l.length + 1 := by
  induction l with
  | nil => rfl
  | cons q qs ih =>
    unfold insertUB
    split
    · simp
    · simp [ih]

theorem mergeStep_syms (l : List (Nat × DepthCounterNode)) :
    (listSyms (mergeStep l)).Perm (listSyms l) := by
  match l with
  | [] => exact List.Perm.refl _
  | [p] => exact List.Perm.refl _
  | p :: q :: rest =>
    show (listSyms (insertUB (p.1 + q.1) (DepthCounterNode.node p.2 q.2) rest)).Perm _
    have h1 : (listSyms (insertUB (p.1 + q.1) (DepthCounterNode.node p.2 q.2) rest)).Perm
        (treeSyms (DepthCounterNode.node p.2 q.2) ++ listSyms rest) := insertUB_syms _ _ _
    have h2 : treeSyms (DepthCounterNode.node p.2 q.2) ++ listSyms rest =
        listSyms (p :: q :: rest) := by
      rw [listSyms_cons, listSyms_cons]
      show treeSyms p.2 ++ treeSyms q.2 ++ listSyms rest = _
      rw [List.append_assoc]
    rw [h2] at h1
    exact h1

theorem iterateMerge_syms (n : Nat) (l : List (Nat × DepthCounterNode)) :
    (listSyms (iterateMerge n l)).Perm (listSyms l) := by
  induction n generalizing l with
  | zero => exact List.Perm.refl _
  | succ m ih => exact (ih (mergeStep l)).trans (mergeStep_syms l)

theorem initialTree_syms (freqs : List (Nat × Nat)) :
    (listSyms (initialTree freqs)).Perm (freqs.map (fun p => p.1)) := by
  suffices h : ∀ (fs : List (Nat × Nat)) (acc : List (Nat × DepthCounterNode)),
      (listSyms (fs.foldl (fun m p => insertUB p.2 (DepthCounterNode.leaf p.1) m) acc)).Perm
        (fs.map (fun p => p.1) ++ listSyms acc) by
    have h2 := h freqs []
    simpa [listSyms] using h2
  intro fs
  induction fs with
  | nil =>
    intro acc
    simp
  | cons f fs2 ih =>
    intro acc
    simp only [List.foldl_cons, List.map_cons]
    have h1 := ih (insertUB f.2 (DepthCounterNode.leaf f.1) acc)
    have h2 : (listSyms (insertUB f.2 (DepthCounterNode.leaf f.1) acc)).Perm
        (f.1 :: listSyms acc) := insertUB_syms f.2 (DepthCounterNode.leaf f.1) acc
    have h3 := h1.trans (h2.append_left (fs2.map (fun p => p.1)))
    have h4 : (fs2.map (fun p => p.1) ++ f.1 :: listSyms acc).Perm
        (f.1 :: (fs2.map (fun p => p.1) ++ listSyms acc)) := List.perm_middle
    exact h3.trans h4

theorem iterateMerge_node (n : Nat) :
    ∀ l : List (Nat × DepthCounterNode), l.length = n + 2 →
    ∃ k a b, iterateMerge (n + 1) l = [(k, DepthCounterNode.node a b)] := by
  induction n with
  | zero =>
    intro l hl
    match l, hl with
    | [p, q], _ => exact ⟨p.1 + q.1, p.2, q.2, rfl⟩
  | succ m ih =>
    intro l hl
    obtain ⟨p, q, rest, rfl⟩ : ∃ p q rest, l = p :: q :: rest := by
      match l, hl with
      | p :: q :: rest, _ => exact ⟨p, q, rest, rfl⟩
    have hlen : (mergeStep (p :: q :: rest)).length = m + 2 := by
      show (insertUB (p.1 + q.1) (DepthCounterNode.node p.2 q.2) rest).length = m + 2
      rw [insertUB_length]
      simp at hl
      omega
    exact ih (mergeStep (p :: q :: rest)) hlen

theorem initialTree_length (freqs : List (Nat × Nat)) :
    (initialTree freqs).length = freqs.length := by
  suffices h : ∀ (fs : List (Nat × Nat)) (acc : List (Nat × DepthCounterNode)),
      (fs.foldl (fun m p => insertUB p.2 (DepthCounterNode.leaf p.1) m) acc).length =
        fs.length + acc.length by
    simpa using h freqs []
  intro fs
  induction fs with
  | nil => intro acc; simp
  | cons f fs2 ih =>
    intro acc
    simp only [List.foldl_cons, List.length_cons]
    rw [ih (insertUB f.2 (DepthCounterNode.leaf f.1) acc), insertUB_length]
    omega

theorem buildTree_root (freqs : List (Nat × Nat)) (h : 2 ≤ freqs.length) :
    ∃ k a b, _buildTree (initialTree freqs) =
      [(k, DepthCounterNode.node a b)] := by
  obtain ⟨n, hn⟩ : ∃ n, freqs.length = n + 2 := ⟨freqs.length - 2, by omega⟩
  have hlen : (initialTree freqs).length = n + 2 := by rw [initialTree_length]; exact hn
  have h1 : _buildTree (initialTree freqs) = iterateMerge (n + 1) (initialTree freqs) := by
    unfold _buildTree
    rw [hlen]
    have h3 : n + 2 - 1 = n + 1 := by omega
    rw [h3]
  rw [h1]
  exact iterateMerge_node n (initialTree freqs) hlen

/- ### Leaf depth extraction facts -/

theorem leafDepths_ne_nil (t : DepthCounterNode) (d : Nat) : leafDepths t d ≠ [] := by
  cases t with
  | leaf s => simp [leafDepths]
  | node a b =>
    have h0 := leafDepths_ne_nil a (d + 1)
    simp only [leafDepths]
    intro h
    rcases List.append_eq_nil.mp h with ⟨h1, _⟩
    exact h0 h1

theorem leafDepths_depth_ge (t : DepthCounterNode) :
    ∀ d p, p ∈ leafDepths t d → d ≤ p.2 := by
  induction t with
  | leaf s =>
    intro d p hp
    simp only [leafDepths, List.mem_singleton] at hp
    subst hp
    simp
  | node a b iha ihb =>
    intro d p hp
    simp only [leafDepths, List.mem_append] at hp
    rcases hp with h | h
    · have := iha (d + 1) p h
      omega
    · have := ihb (d + 1) p h
      omega

theorem leafDepths_keys (t : DepthCounterNode) :
    ∀ d, (leafDepths t d).map (fun p => p.1) = treeSyms t := by
  induction t with
  | leaf s => intro d; rfl
  | node a b iha ihb =>
    intro d
    simp only [leafDepths, treeSyms, List.map_append, iha, ihb]

theorem kraftQ_append (l1 l2 : List (Nat × Nat)) :
    kraftQ (l1 ++ l2) = kraftQ l1 + kraftQ l2 := by
  unfold kraftQ
  rw [List.map_append, List.sum_append]

theorem kraftQ_leafDepths (t : DepthCounterNode) :
    ∀ d, kraftQ (leafDepths t d) = (1 / 2 : ℚ) ^ d := by
  induction t with
  | leaf s =>
    intro d
    simp [leafDepths, kraftQ]
  | node a b iha ihb =>
    intro d
    simp only [leafDepths]
    rw [kraftQ_append, iha, ihb]
    rw [pow_succ]
    ring

/- ### The resolver output -/

theorem buildFromData_eq_buildTable (data : List Nat)
    (hne : _countFrequencies data ≠ []) :
    buildFromData data = _buildTable (sortLeaves (resolverLeaves data)) := by
  cases hf : _countFrequencies data with
  | nil => exact absurd hf hne
  | cons f fs =>
    cases fs with
    | nil => simp [buildFromData, resolverLeaves, hf]
    | cons g rest =>
      rcases buildTree_root (f :: g :: rest) (by simp) with ⟨k, a, b, hroot⟩
      simp [buildFromData, resolverLeaves, hf, hroot]

theorem resolverLeaves_keys_perm (data : List Nat)
    (hne : _countFrequencies data ≠ []) :
    ((resolverLeaves data).map (fun p => p.1)).Perm
      ((_countFrequencies data).map (fun p => p.1)) := by
  cases hf : _countFrequencies data with
  | nil => exact absurd hf hne
  | cons f fs =>
    cases fs with
    | nil =>
      have h1 : resolverLeaves data = [(f.1, 1)] := by
        simp [resolverLeaves, hf]
      rw [h1]
      exact List.Perm.refl _
    | cons g rest =>
      rcases buildTree_root (f :: g :: rest) (by simp) with ⟨k, a, b, hroot⟩
      have h1 : resolverLeaves data = leafDepths (DepthCounterNode.node a b) 0 := by
        simp [resolverLeaves, hf, hroot]
      rw [h1, leafDepths_keys]
      have h2 : treeSyms (DepthCounterNode.node a b) =
          listSyms [(k, DepthCounterNode.node a b)] := by
        unfold listSyms
        simp
      rw [h2, ← hroot]
      unfold _buildTree
      have h3 := iterateMerge_syms ((initialTree (f :: g :: rest)).length - 1)
        (initialTree (f :: g :: rest))
      exact h3.trans (initialTree_syms (f :: g :: rest))

theorem resolverLeaves_keys_nodup (data : List Nat) :
    ((resolverLeaves data).map (fun p => p.1)).Nodup := by
  by_cases hne : _countFrequencies data = []
  · have h1 : resolverLeaves data = [] := by
      simp [resolverLeaves, hne]
    rw [h1]
    simp
  · exact ((resolverLeaves_keys_perm data hne).nodup_iff).mpr
      (countFrequencies_keys_nodup data)

theorem resolverLeaves_key_iff (data : List Nat) (s : Nat) :
    s ∈ (resolverLeaves data).map (fun p => p.1) ↔
      s < ALPHABET_SIZE ∧ 0 < data.count s := by
  by_cases hne : _countFrequencies data = []
  · have h1 : resolverLeaves data = [] := by
      simp [resolverLeaves, hne]
    rw [h1]
    constructor
    · intro h
      simp at h
    · rintro ⟨h1, h2⟩
      exfalso
      have : (s, data.count s) ∈ _countFrequencies data := by
        rw [countFrequencies_mem]
        exact ⟨h1, rfl, h2⟩
      rw [hne] at this
      simp at this
  · rw [(resolverLeaves_keys_perm data hne).mem_iff]
    constructor
    · intro h
      rcases List.mem_map.mp h with ⟨p, hp, hp1⟩
      rw [countFrequencies_mem] at hp
      subst hp1
      exact ⟨hp.1, hp.2.2⟩
    · rintro ⟨h1, h2⟩
      have : (s, data.count s) ∈ _countFrequencies data := by
        rw [countFrequencies_mem]
        exact ⟨h1, rfl, h2⟩
      exact List.mem_map_of_mem _ this

theorem resolverLeaves_depth_pos (data : List Nat) :
    ∀ p ∈ resolverLeaves data, 1 ≤ p.2 := by
  cases hf : _countFrequencies data with
  | nil =>
    have h1 : resolverLeaves data = [] := by
      simp [resolverLeaves, hf]
    rw [h1]
    intro p hp
    simp at hp
  | cons f fs =>
    cases fs with
    | nil =>
      have h1 : resolverLeaves data = [(f.1, 1)] := by
        simp [resolverLeaves, hf]
      rw [h1]
      intro p hp
      simp only [List.mem_singleton] at hp
      subst hp
      simp
    | cons g rest =>
      rcases buildTree_root (f :: g :: rest) (by simp) with ⟨k, a, b, hroot⟩
      have h1 : resolverLeaves data = leafDepths (DepthCounterNode.node a b) 0 := by
        simp [resolverLeaves, hf, hroot]
      rw [h1]
      intro p hp
      simp only [leafDepths, List.mem_append] at hp
      rcases hp with h | h
      · exact leafDepths_depth_ge a 1 p h
      · exact leafDepths_depth_ge b 1 p h

theorem resolverLeaves_kraft_le (data : List Nat) :
    kraftQ (resolverLeaves data) ≤ 1 := by
  cases hf : _countFrequencies data with
  | nil =>
    have h1 : resolverLeaves data = [] := by
      simp [resolverLeaves, hf]
    rw [h1]
    simp [kraftQ]
  | cons f fs =>
    cases fs with
    | nil =>
      have h1 : resolverLeaves data = [(f.1, 1)] := by
        simp [resolverLeaves, hf]
      rw [h1]
      unfold kraftQ
      norm_num
    | cons g rest =>
      rcases buildTree_root (f :: g :: rest) (by simp) with ⟨k, a, b, hroot⟩
      have h1 : resolverLeaves data = leafDepths (DepthCounterNode.node a b) 0 := by
        simp [resolverLeaves, hf, hroot]
      rw [h1, kraftQ_leafDepths]
      norm_num

theorem resolverLeaves_kraft_eq (data : List Nat)
    (h2 : 2 ≤ (_countFrequencies data).length) :
    kraftQ (resolverLeaves data) = 1 := by
  cases hf : _countFrequencies data with
  | nil => rw [hf] at h2; simp at h2
  | cons f fs =>
    cases fs with
    | nil => rw [hf] at h2; simp at h2
    | cons g rest =>
      rcases buildTree_root (f :: g :: rest) (by simp) with ⟨k, a, b, hroot⟩
      have h1 : resolverLeaves data = leafDepths (DepthCounterNode.node a b) 0 := by
        simp [resolverLeaves, hf, hroot]
      rw [h1, kraftQ_leafDepths]
      norm_num

theorem buildTable_isSome (ls : List (Nat × Nat)) (h : ls ≠ []) :
    (_buildTable ls).isSome = true := by
  cases ls with
  | nil => exact absurd rfl h
  | cons p ps => rfl

theorem buildFromData_none (data : List Nat) (h : _countFrequencies data = []) :
    buildFromData data = none := by
  simp [buildFromData, h]

theorem resolverLeaves_ne_nil (data : List Nat) (hne : _countFrequencies data ≠ []) :
    resolverLeaves data ≠ [] := by
  intro h
  have hp := resolverLeaves_keys_perm data hne
  rw [h] at hp
  have := hp.length_eq
  simp at this
  cases hf : _countFrequencies data with
  | nil => exact hne hf
  | cons f fs =>
    rw [hf] at this
    simp at this

theorem sortLeaves_ne_nil (l : List (Nat × Nat)) (h : l ≠ []) : sortLeaves l ≠ [] := by
  intro hc
  have h1 := (sortLeaves_perm l).length_eq
  rw [hc] at h1
  simp at h1
  exact h (List.length_eq_zero.mp h1.symm)

/- ### Claim C8 -/

/-- C8 counterexample: the empty buffer is within every size bound, yet
construction fails on it — the constructor reads the first element of
an empty frequency multimap (CodeTableAdapter.cpp line 75), modelled as
none. -/
theorem claim_no_other_failure_counterexample :
    buildFromData ([] : List Nat) = none := rfl

/-- C8 (amended): for every non-empty data buffer construction
completes without error; the empty buffer is the one further failure
mode (see the counterexample).  The size bound of the claim lives in
the absent constants.h, so completion is proved for all sizes, which
covers every buffer within the bound. -/
theorem claim_no_other_failure (data : List Nat) (hne : data ≠ [])
    (hbytes : ∀ x ∈ data, x < ALPHABET_SIZE) :
    (buildFromData data).isSome = true := by
  have hfne := countFrequencies_ne_nil data hne hbytes
  rw [buildFromData_eq_buildTable data hfne]
  exact buildTable_isSome _ (sortLeaves_ne_nil _ (resolverLeaves_ne_nil data hfne))

/-- Witness for the amended C8 on the one-byte buffer. -/
theorem claim_no_other_failure_witness :
    ([(0 : Nat)] ≠ ([] : List Nat)) ∧ (∀ x ∈ [(0 : Nat)], x < ALPHABET_SIZE) ∧
    (buildFromData [(0 : Nat)]).isSome = true :=
  ⟨by decide, by decide, claim_no_other_failure [0] (by decide) (by decide)⟩

/- ### Claim C6 -/

/-- C6: a buffer in which exactly one byte value occurs yields
codelength exactly 1 (with bit-pattern 0) for that symbol, and every
other symbol keeps the zero-initialized entry. -/
theorem claim_single_symbol (data : List Nat) (b : Nat) (hne : data ≠ [])
    (hb : b < ALPHABET_SIZE) (hall : ∀ x ∈ data, x = b)
    (t : CodeTable) (ht : buildFromData data = some t) :
    t.codes b = CodeMake 1 0 ∧ ∀ s, s ≠ b → t.codes s = zeroCode := by
  have hf : _countFrequencies data = [(b, data.length)] :=
    countFrequencies_uniform data b hne hb hall
  have hres : resolverLeaves data = [(b, 1)] := by
    simp [resolverLeaves, hf]
  rw [buildFromData_eq_buildTable data (by rw [hf]; simp), hres] at ht
  have hsort : sortLeaves [(b, 1)] = [(b, 1)] := rfl
  rw [hsort] at ht
  constructor
  · refine buildTable_lookup_mem [(b, 1)] t ht b (CodeMake 1 0) (by simp) ?_
    show (b, CodeMake 1 0) ∈ [(b, CodeMake 1 0)]
    simp
  · intro s hs
    refine buildTable_lookup_notMem [(b, 1)] t ht s ?_
    simp
    exact hs

/-- Witness for C6 on the buffer of three 7 bytes. -/
theorem claim_single_symbol_witness :
    ([(7 : Nat), 7, 7] ≠ ([] : List Nat)) ∧ ((7 : Nat) < ALPHABET_SIZE) ∧
    (∀ x ∈ [(7 : Nat), 7, 7], x = 7) ∧
    (buildFromData [(7 : Nat), 7, 7]).map (fun t => t.codes 7) = some (CodeMake 1 0) ∧
    (buildFromData [(7 : Nat), 7, 7]).map (fun t => t.codes 9) = some zeroCode := by
  have h := claim_single_symbol [(7 : Nat), 7, 7] 7 (by decide) (by decide) (by decide)
    ((buildFromData [(7 : Nat), 7, 7]).getD defaultTable) rfl
  refine ⟨by decide, by decide, by decide, ?_, ?_⟩
  · rw [show buildFromData [(7 : Nat), 7, 7] =
      some ((buildFromData [(7 : Nat), 7, 7]).getD defaultTable) from rfl]
    simp [h.1]
  · rw [show buildFromData [(7 : Nat), 7, 7] =
      some ((buildFromData [(7 : Nat), 7, 7]).getD defaultTable) from rfl]
    simp [h.2 9 (by decide)]

/- ### Claim C5 -/

/-- C5: the codelengths the Resolver produces satisfy the Kraft
inequality: the sum of 2 ^ -length over the used symbols is at most 1.
resolverLeaves lists each used symbol of the data exactly once
(second and third conjunct), so the sum over it is the sum over used
symbols. -/
theorem claim_kraft (data : List Nat) (hne : data ≠ [])
    (hbytes : ∀ x ∈ data, x < ALPHABET_SIZE) :
    kraftQ (resolverLeaves data) ≤ 1 ∧
    ((resolverLeaves data).map (fun p => p.1)).Nodup ∧
    (∀ s, s ∈ (resolverLeaves data).map (fun p => p.1) ↔
      s < ALPHABET_SIZE ∧ 0 < data.count s) :=
  ⟨resolverLeaves_kraft_le data, resolverLeaves_keys_nodup data,
    fun s => resolverLeaves_key_iff data s⟩

/-- Witness for C5 on the buffer [0, 0, 1]. -/
theorem claim_kraft_witness :
    ([(0 : Nat), 0, 1] ≠ ([] : List Nat)) ∧
    (∀ x ∈ [(0 : Nat), 0, 1], x < ALPHABET_SIZE) ∧
    kraftQ (resolverLeaves [(0 : Nat), 0, 1]) ≤ 1 :=
  ⟨by decide, by decide, (claim_kraft [(0 : Nat), 0, 1] (by decide) (by decide)).1⟩

/- ### Serialization facts -/

theorem lengthsLeaves_mem (fd : List Nat) (s d : Nat) :
    (s, d) ∈ lengthsLeaves fd ↔ s < ALPHABET_SIZE ∧ 0 < d ∧ fd.getD s 0 = d := by
  unfold lengthsLeaves
  rw [List.mem_filterMap]
  constructor
  · rintro ⟨i, hi, hf⟩
    rw [List.mem_range] at hi
    by_cases h : 0 < fd.getD i 0
    · rw [if_pos h] at hf
      cases hf
      exact ⟨hi, h, rfl⟩
    · rw [if_neg h] at hf
      cases hf
  · rintro ⟨h1, h2, h3⟩
    refine ⟨s, List.mem_range.mpr h1, ?_⟩
    rw [h3, if_pos h2]

theorem lengthsOf_length (t : CodeTable) : (lengthsOf t).length = ALPHABET_SIZE := by
  simp [lengthsOf]

theorem lengthsOf_getD (t : CodeTable) (s : Nat) (hs : s < ALPHABET_SIZE) :
    (lengthsOf t).getD s 0 = (t.codes s).codelength := by
  unfold lengthsOf
  rw [List.getD_eq_getElem _ _ (by simpa using hs)]
  simp

/-- Extracting the per-symbol codelengths of a built table recovers
exactly the leaf multiset the table was built from. -/
theorem table_extraction (p : Nat × Nat) (ps : List (Nat × Nat)) (t : CodeTable)
    (ht : _buildTable (p :: ps) = some t)
    (hnd : ((p :: ps).map (fun q => q.1)).Nodup)
    (hkeys : ∀ q ∈ p :: ps, q.1 < ALPHABET_SIZE)
    (hdep : ∀ q ∈ p :: ps, 1 ≤ q.2) :
    (lengthsLeaves (lengthsOf t)).Perm (p :: ps) := by
  refine (List.perm_ext_iff_of_nodup ?_ ?_).mpr ?_
  · exact List.Nodup.of_map _ (lengthsLeaves_keys_nodup (lengthsOf t))
  · exact List.Nodup.of_map _ hnd
  · intro a
    obtain ⟨s, d⟩ := a
    rw [lengthsLeaves_mem]
    constructor
    · rintro ⟨h1, h2, h3⟩
      rw [lengthsOf_getD t s h1] at h3
      subst h3
      rcases assigned_mem (p :: ps) t ht hnd s h2 with ⟨c, hc, hceq⟩
      have h4 : (s, c.codelength) ∈ (p :: ps) := by
        rw [← tableAssignments_lengths (p :: ps)]
        exact List.mem_map_of_mem _ hc
      rw [hceq]
      exact h4
    · intro hmem
      have h1 : s < ALPHABET_SIZE := hkeys (s, d) hmem
      have h2 : 1 ≤ d := hdep (s, d) hmem
      have h3 : (t.codes s).codelength = d := buildTable_codelength (p :: ps) t ht s d hnd hmem
      rw [lengthsOf_getD t s h1, h3]
      exact ⟨h1, by omega, rfl⟩

/- ### Claim C2 -/

/-- C2: round-trip via lengths.  Building a table from data, extracting
only its 256 per-symbol codelengths, and building a second table from
that length descriptor reproduces the very same table. -/
theorem claim_round_trip (data : List Nat) (hne : data ≠ [])
    (hbytes : ∀ x ∈ data, x < ALPHABET_SIZE) (t : CodeTable)
    (ht : buildFromData data = some t) :
    buildFromLengths (lengthsOf t) = some t := by
  have hfne := countFrequencies_ne_nil data hne hbytes
  rw [buildFromData_eq_buildTable data hfne] at ht
  have hpw0 := sortLeaves_depths_antitone (resolverLeaves data)
  have hsorted0 := sortLeaves_sorted (resolverLeaves data)
  have hnd0 := sortLeaves_keys_nodup (resolverLeaves data) (resolverLeaves_keys_nodup data)
  have hperm0 := sortLeaves_perm (resolverLeaves data)
  cases hc : sortLeaves (resolverLeaves data) with
  | nil =>
    rw [hc] at ht
    simp [_buildTable] at ht
  | cons p ps =>
    rw [hc] at ht hpw0 hsorted0 hnd0 hperm0
    have hkeys : ∀ q ∈ p :: ps, q.1 < ALPHABET_SIZE := by
      intro q hq
      have h1 : q ∈ resolverLeaves data := hperm0.subset hq
      have h2 : q.1 ∈ (resolverLeaves data).map (fun r => r.1) := List.mem_map_of_mem _ h1
      exact ((resolverLeaves_key_iff data q.1).mp h2).1
    have hdep : ∀ q ∈ p :: ps, 1 ≤ q.2 := by
      intro q hq
      exact resolverLeaves_depth_pos data q (hperm0.subset hq)
    have hext := table_extraction p ps t ht hnd0 hkeys hdep
    have hsorteq : sortLeaves (lengthsLeaves (lengthsOf t)) = p :: ps := by
      refine List.eq_of_perm_of_sorted ?_ (sortLeaves_sorted _) hsorted0
      exact (sortLeaves_perm _).trans hext
    rw [buildFromLengths_eq (lengthsOf t) (lengthsOf_length t), hsorteq]
    exact ht

/-- Witness for C2 on exD. -/
theorem claim_round_trip_witness :
    (exD ≠ []) ∧ (∀ x ∈ exD, x < ALPHABET_SIZE) ∧
    buildFromData exD = some exTD ∧
    buildFromLengths (lengthsOf exTD) = some exTD :=
  ⟨by decide, by decide, rfl, claim_round_trip exD (by decide) (by decide) exTD rfl⟩

/- ### Claim C9 -/

/-- C9: unused symbols stay zero-initialized, on both construction
paths: a symbol whose descriptor entry is 0 (lengths path), or that
does not occur in the data (raw-data path), keeps the all-zero Code. -/
theorem claim_unused_symbols :
    (∀ fd : List Nat, fd.length = ALPHABET_SIZE →
      ∀ t, buildFromLengths fd = some t →
      ∀ s, fd.getD s 0 = 0 → t.codes s = zeroCode) ∧
    (∀ data : List Nat, ∀ t, buildFromData data = some t →
      ∀ s, s ∉ data → t.codes s = zeroCode) := by
  constructor
  · intro fd hlen t ht s hs
    rw [buildFromLengths_eq fd hlen] at ht
    cases hc : sortLeaves (lengthsLeaves fd) with
    | nil =>
      rw [hc] at ht
      simp [_buildTable] at ht
    | cons p ps =>
      rw [hc] at ht
      refine buildTable_lookup_notMem (p :: ps) t ht s ?_
      intro hmem
      have h1 : s ∈ (sortLeaves (lengthsLeaves fd)).map (fun q => q.1) := by
        rw [hc]
        exact hmem
      rw [((sortLeaves_perm (lengthsLeaves fd)).map (fun q => q.1)).mem_iff] at h1
      rcases List.mem_map.mp h1 with ⟨q, hq, hq1⟩
      obtain ⟨qs, qd⟩ := q
      rw [lengthsLeaves_mem] at hq
      simp only at hq1
      subst hq1
      omega
  · intro data t ht s hs
    have hfne : _countFrequencies data ≠ [] := by
      intro h
      rw [buildFromData_none data h] at ht
      cases ht
    rw [buildFromData_eq_buildTable data hfne] at ht
    cases hc : sortLeaves (resolverLeaves data) with
    | nil =>
      rw [hc] at ht
      simp [_buildTable] at ht
    | cons p ps =>
      rw [hc] at ht
      refine buildTable_lookup_notMem (p :: ps) t ht s ?_
      intro hmem
      have h1 : s ∈ (sortLeaves (resolverLeaves data)).map (fun q => q.1) := by
        rw [hc]
        exact hmem
      rw [((sortLeaves_perm (resolverLeaves data)).map (fun q => q.1)).mem_iff] at h1
      have h2 := ((resolverLeaves_key_iff data s).mp h1).2
      exact hs (List.count_pos_iff.mp h2)

/-- Witness for C9: symbol 5 has descriptor entry 0 in exL2 and symbol
9 does not occur in exD; both keep the zero code. -/
theorem claim_unused_symbols_witness :
    exL2.length = ALPHABET_SIZE ∧ exL2.getD 5 0 = 0 ∧ exT2.codes 5 = zeroCode ∧
    (9 ∉ exD) ∧ exTD.codes 9 = zeroCode :=
  ⟨by decide, by decide,
    claim_unused_symbols.1 exL2 (by decide) exT2 rfl 5 (by decide),
    by decide,
    claim_unused_symbols.2 exD exTD rfl 9 (by decide)⟩

/- ### Claim C7 -/

theorem buildTable_info (p : Nat × Nat) (ps : List (Nat × Nat)) (t : CodeTable)
    (ht : _buildTable (p :: ps) = some t) : t.info.max_codelength = p.2 := by
  simp only [_buildTable, Option.some_inj] at ht
  rw [← ht]

theorem foldr_max_le (l : List Nat) (m : Nat) (h : ∀ x ∈ l, x ≤ m) :
    l.foldr max 0 ≤ m := by
  induction l with
  | nil => simp
  | cons a as ih =>
    simp only [List.foldr_cons]
    have h1 := h a (List.mem_cons_self a as)
    have h2 := ih (fun x hx => h x (List.mem_cons_of_mem a hx))
    omega

theorem le_foldr_max (l : List Nat) (x : Nat) (h : x ∈ l) : x ≤ l.foldr max 0 := by
  induction l with
  | nil => simp at h
  | cons a as ih =>
    simp only [List.foldr_cons]
    rcases List.mem_cons.mp h with h1 | h1
    · subst h1
      omega
    · have := ih h1
      omega

/-- The stored max_codelength of a built table is the greatest stored
codelength. -/
theorem buildTable_max (p : Nat × Nat) (ps : List (Nat × Nat)) (t : CodeTable)
    (ht : _buildTable (p :: ps) = some t)
    (hpw : List.Pairwise (fun a b : Nat × Nat => b.2 ≤ a.2) (p :: ps))
    (hnd : ((p :: ps).map (fun q => q.1)).Nodup)
    (hkeys : ∀ q ∈ p :: ps, q.1 < ALPHABET_SIZE) :
    t.info.max_codelength = (lengthsOf t).foldr max 0 := by
  rw [buildTable_info p ps t ht]
  refine le_antisymm ?_ ?_
  · refine le_foldr_max (lengthsOf t) p.2 ?_
    have h1 : (t.codes p.1).codelength = p.2 :=
      buildTable_codelength (p :: ps) t ht p.1 p.2 hnd (List.mem_cons_self p ps)
    unfold lengthsOf
    rw [← h1]
    exact List.mem_map_of_mem _ (List.mem_range.mpr (hkeys p (List.mem_cons_self p ps)))
  · refine foldr_max_le (lengthsOf t) p.2 ?_
    intro x hx
    unfold lengthsOf at hx
    rcases List.mem_map.mp hx with ⟨i, hi, hieq⟩
    subst hieq
    by_cases hmem : i ∈ (p :: ps).map (fun q => q.1)
    · rcases List.mem_map.mp hmem with ⟨q, hq, hq1⟩
      obtain ⟨qs, qd⟩ := q
      simp only at hq1
      subst hq1
      rw [buildTable_codelength (p :: ps) t ht qs qd hnd hq]
      exact sorted_head_depth_ge p ps hpw (qs, qd) hq
    · rw [buildTable_lookup_notMem (p :: ps) t ht i hmem]
      simp [zeroCode]

/-- C7: on both construction paths the stored max_codelength equals the
greatest codelength in the table (unassigned symbols store 0, so the
maximum over all 256 entries is the maximum over assigned codes). -/
theorem claim_max_codelength :
    (∀ fd : List Nat, fd.length = ALPHABET_SIZE →
      ∀ t, buildFromLengths fd = some t →
      t.info.max_codelength = (lengthsOf t).foldr max 0) ∧
    (∀ data : List Nat, ∀ t, buildFromData data = some t →
      t.info.max_codelength = (lengthsOf t).foldr max 0) := by
  constructor
  · intro fd hlen t ht
    rw [buildFromLengths_eq fd hlen] at ht
    have hpw0 := sortLeaves_depths_antitone (lengthsLeaves fd)
    have hnd0 := sortLeaves_keys_nodup (lengthsLeaves fd) (lengthsLeaves_keys_nodup fd)
    have hperm0 := sortLeaves_perm (lengthsLeaves fd)
    cases hc : sortLeaves (lengthsLeaves fd) with
    | nil =>
      rw [hc] at ht
      simp [_buildTable] at ht
    | cons p ps =>
      rw [hc] at ht hpw0 hnd0 hperm0
      refine buildTable_max p ps t ht hpw0 hnd0 ?_
      intro q hq
      have h1 : q ∈ lengthsLeaves fd := hperm0.subset hq
      obtain ⟨qs, qd⟩ := q
      exact ((lengthsLeaves_mem fd qs qd).mp h1).1
  · intro data t ht
    have hfne : _countFrequencies data ≠ [] := by
      intro h
      rw [buildFromData_none data h] at ht
      cases ht
    rw [buildFromData_eq_buildTable data hfne] at ht
    have hpw0 := sortLeaves_depths_antitone (resolverLeaves data)
    have hnd0 := sortLeaves_keys_nodup (resolverLeaves data) (resolverLeaves_keys_nodup data)
    have hperm0 := sortLeaves_perm (resolverLeaves data)
    cases hc : sortLeaves (resolverLeaves data) with
    | nil =>
      rw [hc] at ht
      simp [_buildTable] at ht
    | cons p ps =>
      rw [hc] at ht hpw0 hnd0 hperm0
      refine buildTable_max p ps t ht hpw0 hnd0 ?_
      intro q hq
      have h1 : q ∈ resolverLeaves data := hperm0.subset hq
      have h2 : q.1 ∈ (resolverLeaves data).map (fun r => r.1) := List.mem_map_of_mem _ h1
      exact ((resolverLeaves_key_iff data q.1).mp h2).1

/-- Witness for C7 on exL2 (lengths path) and exD (data path). -/
theorem claim_max_codelength_witness :
    exL2.length = ALPHABET_SIZE ∧
    exT2.info.max_codelength = (lengthsOf exT2).foldr max 0 ∧
    exTD.info.max_codelength = (lengthsOf exTD).foldr max 0 :=
  ⟨by decide,
    claim_max_codelength.1 exL2 (by decide) exT2 rfl,
    claim_max_codelength.2 exD exTD rfl⟩

/- ### Decode correctness -/

/-- Consuming the next most-significant bit refines the running
accumulator from n / 2^(w+1) to n / 2^w. -/
theorem div_bit_step (n w : Nat) :
    2 * (n / 2 ^ (w + 1)) + (if n.testBit w then 1 else 0) = n / 2 ^ w := by
  have h1 : (if n.testBit w then 1 else 0) = n / 2 ^ w % 2 := by
    rw [Nat.testBit_to_div_mod]
    rcases Nat.mod_two_eq_zero_or_one (n / 2 ^ w) with h | h <;> simp [h]
  have h2 : n / 2 ^ (w + 1) = n / 2 ^ w / 2 := by
    rw [pow_succ, ← Nat.div_div_eq_div_mul]
  have h3 := Nat.div_add_mod (n / 2 ^ w) 2
  omega

theorem matchSymbol_some (t : CodeTable) (pat len s : Nat)
    (h : matchSymbol t pat len = some s) :
    s < ALPHABET_SIZE ∧ (t.codes s).codelength = len ∧ (t.codes s).code = pat := by
  unfold matchSymbol at h
  have h1 := List.find?_some h
  have h2 := List.mem_of_find?_eq_some h
  rw [List.mem_range] at h2
  simp only [Bool.and_eq_true, beq_iff_eq] at h1
  exact ⟨h2, h1.1, h1.2⟩

theorem matchSymbol_ne_none (t : CodeTable) (s : Nat) (hs : s < ALPHABET_SIZE) :
    matchSymbol t (t.codes s).code (t.codes s).codelength ≠ none := by
  unfold matchSymbol
  intro h
  rw [List.find?_eq_none] at h
  exact h s (List.mem_range.mpr hs) (by simp)

/-- The accumulated prefix of length len - v of the codeword of s
matches no assigned code while v is at least 1, and matches exactly s
once all bits are read; so the bit-at-a-time loop returns s. -/
theorem decodeOne_aux (t : CodeTable) (s : Nat) (hpf : tablePrefixFree t)
    (hs : s < ALPHABET_SIZE) (h1 : 1 ≤ (t.codes s).codelength)
    (hM : (t.codes s).codelength ≤ t.info.max_codelength) (rest : List Bool) :
    ∀ w, 1 ≤ w → w ≤ (t.codes s).codelength →
    decodeOne t (t.info.max_codelength - ((t.codes s).codelength - w))
      ((t.codes s).code / 2 ^ w) ((t.codes s).codelength - w)
      (bitsMSB w (t.codes s).code ++ rest) = some (s, rest) := by
  intro w
  induction w with
  | zero => intro hw; omega
  | succ v ih =>
    intro hw hwlen
    have hfuel : ∃ f, t.info.max_codelength - ((t.codes s).codelength - (v + 1)) = f + 1 :=
      ⟨t.info.max_codelength - ((t.codes s).codelength - (v + 1)) - 1, by omega⟩
    rcases hfuel with ⟨f, hf⟩
    rw [hf]
    show decodeOne t (f + 1) ((t.codes s).code / 2 ^ (v + 1))
      ((t.codes s).codelength - (v + 1))
      (((t.codes s).code.testBit v) :: (bitsMSB v (t.codes s).code ++ rest)) = some (s, rest)
    have hj : (t.codes s).codelength - (v + 1) + 1 = (t.codes s).codelength - v := by omega
    simp only [decodeOne]
    rw [div_bit_step ((t.codes s).code) v, hj]
    by_cases hv : v = 0
    · subst hv
      have hlen0 : (t.codes s).codelength - 0 = (t.codes s).codelength := by omega
      rw [hlen0]
      have hdiv0 : (t.codes s).code / 2 ^ 0 = (t.codes s).code := by simp
      rw [hdiv0]
      cases hm : matchSymbol t (t.codes s).code (t.codes s).codelength with
      | none => exact absurd hm (matchSymbol_ne_none t s hs)
      | some s2 =>
        rcases matchSymbol_some t _ _ s2 hm with ⟨hs2, hlen2, hcode2⟩
        have heq : s2 = s := by
          by_contra hne
          refine hpf s2 hs2 s hs hne (by omega) (by omega) ?_
          refine ⟨by omega, ?_⟩
          have hz : (t.codes s).codelength - (t.codes s2).codelength = 0 := by omega
          rw [hz]
          simp [hcode2]
        subst heq
        simp [bitsMSB]
    · have hvpos : 1 ≤ v := by omega
      have hnone : matchSymbol t ((t.codes s).code / 2 ^ v)
          ((t.codes s).codelength - v) = none := by
        cases hm : matchSymbol t ((t.codes s).code / 2 ^ v)
            ((t.codes s).codelength - v) with
        | none => rfl
        | some s2 =>
          exfalso
          rcases matchSymbol_some t _ _ s2 hm with ⟨hs2, hlen2, hcode2⟩
          have hne : s2 ≠ s := by
            intro he
            subst he
            omega
          refine hpf s2 hs2 s hs hne (by omega) (by omega) ?_
          refine ⟨by omega, ?_⟩
          have hz : (t.codes s).codelength - (t.codes s2).codelength = v := by omega
          rw [hz, Nat.shiftRight_eq_div_pow, hcode2]
      rw [hnone]
      have hfe : f = t.info.max_codelength - ((t.codes s).codelength - v) := by omega
      rw [hfe]
      exact ih hvpos (by omega)

/-- Reading one codeword from the stream recovers its symbol and
leaves the remaining bits untouched. -/
theorem decodeOne_correct (t : CodeTable) (s : Nat) (hpf : tablePrefixFree t)
    (hs : s < ALPHABET_SIZE) (h1 : 1 ≤ (t.codes s).codelength)
    (hM : (t.codes s).codelength ≤ t.info.max_codelength)
    (hfit : (t.codes s).code < 2 ^ (t.codes s).codelength) (rest : List Bool) :
    decodeOne t t.info.max_codelength 0 0 (encodeSymbol t s ++ rest) = some (s, rest) := by
  have h := decodeOne_aux t s hpf hs h1 hM rest (t.codes s).codelength h1 (le_refl _)
  rw [Nat.sub_self, Nat.sub_zero, Nat.div_eq_of_lt hfit] at h
  exact h

/-- Decoding symbol-count many codewords from the packed stream (plus
arbitrary trailing padding, never read) recovers the data exactly. -/
theorem decode_encode (t : CodeTable) (D : List Nat) (hpf : tablePrefixFree t)
    (hgood : ∀ x ∈ D, x < ALPHABET_SIZE ∧ 1 ≤ (t.codes x).codelength ∧
      (t.codes x).codelength ≤ t.info.max_codelength ∧
      (t.codes x).code < 2 ^ (t.codes x).codelength) :
    ∀ pad, decodeAll t D.length (encodeData t D ++ pad) = some D := by
  induction D with
  | nil =>
    intro pad
    rfl
  | cons d ds ih =>
    intro pad
    have hd := hgood d (List.mem_cons_self d ds)
    have henc : encodeData t (d :: ds) = encodeSymbol t d ++ encodeData t ds := rfl
    rw [henc, List.append_assoc]
    show decodeAll t (ds.length + 1) (encodeSymbol t d ++ (encodeData t ds ++ pad)) = _
    simp only [decodeAll]
    rw [decodeOne_correct t d hpf hd.1 hd.2.1 hd.2.2.1 hd.2.2.2 (encodeData t ds ++ pad)]
    show (decodeAll t ds.length (encodeData t ds ++ pad)).map (fun ds2 => d :: ds2) =
      some (d :: ds)
    rw [ih (fun x hx => hgood x (List.mem_cons_of_mem d hx)) pad]
    rfl

/-- Prefix-freeness of a one-leaf table: only one symbol is assigned. -/
theorem buildTable_prefixFree_single (b d : Nat) (t : CodeTable)
    (ht : _buildTable [(b, d)] = some t) : tablePrefixFree t := by
  intro s hsa u hua hne hs1 hu1
  exfalso
  have hskey : s = b := by
    by_contra hsb
    have h2 : t.codes s = zeroCode := by
      refine buildTable_lookup_notMem [(b, d)] t ht s ?_
      simp [hsb]
    rw [h2] at hs1
    simp [zeroCode] at hs1
  have hukey : u = b := by
    by_contra hub
    have h2 : t.codes u = zeroCode := by
      refine buildTable_lookup_notMem [(b, d)] t ht u ?_
      simp [hub]
    rw [h2] at hu1
    simp [zeroCode] at hu1
  exact hne (hskey.trans hukey.symm)

/-- The full invariants of any table built from raw data: the built
table is prefix-free and every byte of the data is assigned a code of
positive length, bounded by max_codelength and fitting its width. -/
theorem buildFromData_good (data : List Nat) (hne : data ≠ [])
    (hbytes : ∀ x ∈ data, x < ALPHABET_SIZE) (t : CodeTable)
    (ht : buildFromData data = some t) :
    tablePrefixFree t ∧
    ∀ x ∈ data, x < ALPHABET_SIZE ∧ 1 ≤ (t.codes x).codelength ∧
      (t.codes x).codelength ≤ t.info.max_codelength ∧
      (t.codes x).code < 2 ^ (t.codes x).codelength := by
  have hfne := countFrequencies_ne_nil data hne hbytes
  rw [buildFromData_eq_buildTable data hfne] at ht
  have hpw0 := sortLeaves_depths_antitone (resolverLeaves data)
  have hnd0 := sortLeaves_keys_nodup (resolverLeaves data) (resolverLeaves_keys_nodup data)
  have hperm0 := sortLeaves_perm (resolverLeaves data)
  cases hc : sortLeaves (resolverLeaves data) with
  | nil =>
    rw [hc] at ht
    simp [_buildTable] at ht
  | cons p ps =>
    rw [hc] at ht hpw0 hnd0 hperm0
    have hmem : ∀ x ∈ data, ∃ dx, (x, dx) ∈ p :: ps := by
      intro x hx
      have hxk : x ∈ (resolverLeaves data).map (fun r => r.1) :=
        (resolverLeaves_key_iff data x).mpr
          ⟨hbytes x hx, List.count_pos_iff.mpr hx⟩
      have hxk2 : x ∈ (p :: ps).map (fun r => r.1) :=
        ((hperm0.map (fun r : Nat × Nat => r.1)).mem_iff).mpr hxk
      rcases List.mem_map.mp hxk2 with ⟨q, hq, hq1⟩
      refine ⟨q.2, ?_⟩
      rw [← hq1]
      exact hq
    have hdep : ∀ q ∈ p :: ps, 1 ≤ q.2 := by
      intro q hq
      exact resolverLeaves_depth_pos data q (hperm0.subset hq)
    have hsumle : sumW p.2 (p :: ps) ≤ 2 ^ p.2 := by
      cases ps with
      | nil =>
        unfold sumW
        simp only [List.map_cons, List.map_nil, List.sum_cons, List.sum_nil, Nat.sub_self,
          pow_zero]
        have := Nat.one_le_two_pow (n := p.2)
        omega
      | cons q qs =>
        have he1 : (resolverLeaves data).length = (_countFrequencies data).length := by
          have h := (resolverLeaves_keys_perm data hfne).length_eq
          simpa using h
        have he2 : (sortLeaves (resolverLeaves data)).length =
            (resolverLeaves data).length := (sortLeaves_perm _).length_eq
        rw [hc] at he2
        have hlen2 : 2 ≤ (_countFrequencies data).length := by
          simp only [List.length_cons] at he2
          omega
        have hkq : kraftQ (p :: q :: qs) = 1 := by
          rw [kraftQ_perm _ _ hperm0]
          exact resolverLeaves_kraft_eq data hlen2
        exact le_of_eq (sumW_eq_of_kraft_eq p.2 (p :: q :: qs)
          (sorted_head_depth_ge p (q :: qs) hpw0) hkq)
    have hpf : tablePrefixFree t := by
      cases ps with
      | nil => exact buildTable_prefixFree_single p.1 p.2 t ht
      | cons q qs =>
        have he1 : (resolverLeaves data).length = (_countFrequencies data).length := by
          have h := (resolverLeaves_keys_perm data hfne).length_eq
          simpa using h
        have he2 : (sortLeaves (resolverLeaves data)).length =
            (resolverLeaves data).length := (sortLeaves_perm _).length_eq
        rw [hc] at he2
        have hlen2 : 2 ≤ (_countFrequencies data).length := by
          simp only [List.length_cons] at he2
          omega
        have hkq : kraftQ (p :: q :: qs) = 1 := by
          rw [kraftQ_perm _ _ hperm0]
          exact resolverLeaves_kraft_eq data hlen2
        exact buildTable_prefixFree p (q :: qs) t ht hpw0 hnd0
          (sumW_eq_of_kraft_eq p.2 (p :: q :: qs)
            (sorted_head_depth_ge p (q :: qs) hpw0) hkq)
    have hbound := buildTable_bound p ps t ht hpw0 hnd0 hsumle
    refine ⟨hpf, ?_⟩
    intro x hx
    rcases hmem x hx with ⟨dx, hdx⟩
    have hlenx : (t.codes x).codelength = dx :=
      buildTable_codelength (p :: ps) t ht x dx hnd0 hdx
    have hdxpos : 1 ≤ dx := hdep (x, dx) hdx
    have hdxle : dx ≤ p.2 := sorted_head_depth_ge p ps hpw0 (x, dx) hdx
    have hmax : t.info.max_codelength = p.2 := buildTable_info p ps t ht
    refine ⟨hbytes x hx, by omega, by omega, ?_⟩
    exact hbound x (by omega)

/- ### Claim C3 -/

/-- C3: decode correctness for a single block.  Building a table from
the data, encoding the data with it into one back-to-back MSB-first
bitstream (with arbitrary trailing padding, never interpreted), and
decoding exactly data.length symbols bit by bit against the table,
reproduces the data exactly. -/
theorem claim_decode_correctness (data : List Nat) (hne : data ≠ [])
    (hbytes : ∀ x ∈ data, x < ALPHABET_SIZE) (t : CodeTable)
    (ht : buildFromData data = some t) (pad : List Bool) :
    decodeAll t data.length (encodeData t data ++ pad) = some data := by
  rcases buildFromData_good data hne hbytes t ht with ⟨hpf, hgood⟩
  exact decode_encode t data hpf hgood pad

/-- Witness for C3 on exD with two padding zero bits. -/
theorem claim_decode_correctness_witness :
    (exD ≠ []) ∧ (∀ x ∈ exD, x < ALPHABET_SIZE) ∧
    buildFromData exD = some exTD ∧
    decodeAll exTD exD.length (encodeData exTD exD ++ [false, false]) = some exD :=
  ⟨by decide, by decide, rfl,
    claim_decode_correctness exD (by decide) (by decide) exTD rfl [false, false]⟩

example : _countFrequencies [0, 0, 0, 1, 1, 2] = [(2, 1), (1, 2), (0, 3)] := by decide

example : (buildFromData [0, 0, 0, 1, 1, 2]).map
    (fun t => ((t.codes 0, t.codes 1, t.codes 2), t.info.max_codelength)) =
    some ((⟨1, 1⟩, ⟨0, 2⟩, ⟨1, 2⟩), 2) := by decide

example : buildFromData ([] : List Nat) = none := rfl
